import Mathlib

/-!
Verification of the fleet-telemetry ingestion service.

This file gives a shallow embedding, in Lean, of the telemetry processing
pipeline of the repository: payload validation, the bounded vehicle cache with
TTL expiry, derived-speed computation, the live websocket fan-out, and the
durable telemetry store with rollup computation, history pagination and
windowed aggregate queries.  Numbers carried by messages are modelled as
rationals (JSON numbers are finite decimals), timestamps as rational
milliseconds or natural epoch seconds, and the trigonometric haversine
distance over the reals.  Each major claim of the specification is then stated
and settled as a theorem about these definitions.
-/

/-! ## JSON values and telemetry validation

Embedding of src/backend/utils/validation.js.  A parsed JSON document is one
of null, boolean, number, string, array or object.  JSON numbers are finite,
so they are modelled as rationals and the isFiniteNumber check of the source
reduces to a type check.
-/

/-- Parsed JSON values, as produced by a JSON decoder. -/
inductive JVal where
  | jnull : JVal
  | jbool (b : Bool) : JVal
  | jnum (q : ℚ) : JVal
  | jstr (s : String) : JVal
  | jarr (elems : List JVal) : JVal
  | jobj (fields : List (String × JVal)) : JVal

/-- Property read on a JSON object: first binding of the key, if any. -/
def lookupField (fields : List (String × JVal)) (key : String) : Option JVal :=
  match fields with
  | [] => none
  | f :: rest => if f.1 = key then some f.2 else lookupField rest key

/-- Coercion used by the typeof-number checks of the source: a value is a
finite number exactly when it is a JSON number. -/
def asNum : Option JVal → Option ℚ
  | some (.jnum q) => some q
  | _ => none

/-- Coercion used by the typeof-string checks of the source. -/
def asStr : Option JVal → Option String
  | some (.jstr s) => some s
  | _ => none

/-- Behaviour of the JavaScript Date constructor on the ts field, with host
string-to-instant parsing supplied as a parameter (it is a runtime library
facility, not code of this repository).  A finite number is a valid epoch
value, a boolean coerces to 0 or 1 milliseconds, arrays and objects do not
parse to instants.  The null and absent cases are rejected by the source
before the Date constructor runs. -/
def jsDateValue (parseDate : String → Option ℚ) : JVal → Option ℚ
  | .jnum q => some q
  | .jstr s => parseDate s
  | .jbool b => some (if b then 1 else 0)
  | _ => none

/-- Normalised telemetry record emitted on successful validation:
trimmed id, coerced numbers, parsed instant (milliseconds), lowercased
engine status. -/
structure NormMsg where
  vehicleId : String
  lat : ℚ
  lng : ℚ
  ts : ℚ
  fuelLevel : ℚ
  engineStatus : String
deriving DecidableEq, Repr

/-- Validation of the fields of an object payload, in source order:
vehicleId, lat, lng, ts, fuelLevel, engineStatus. -/
def validateFields (parseDate : String → Option ℚ)
    (fields : List (String × JVal)) : Except String NormMsg :=
  match asStr (lookupField fields "vehicleId") with
  | none => .error "vehicleId must be a non-empty string"
  | some vid =>
    if vid.trim = "" then .error "vehicleId must be a non-empty string"
    else match asNum (lookupField fields "lat") with
    | none => .error "lat must be a finite number between -90 and 90"
    | some lat =>
      if lat < -90 ∨ lat > 90 then .error "lat must be a finite number between -90 and 90"
      else match asNum (lookupField fields "lng") with
      | none => .error "lng must be a finite number between -180 and 180"
      | some lng =>
        if lng < -180 ∨ lng > 180 then .error "lng must be a finite number between -180 and 180"
        else match lookupField fields "ts" with
        | none => .error "ts is required"
        | some .jnull => .error "ts is required"
        | some tsv =>
          match jsDateValue parseDate tsv with
          | none => .error "ts must be a valid date"
          | some tsMs =>
            match asNum (lookupField fields "fuelLevel") with
            | none => .error "fuelLevel must be a finite number between 0 and 100"
            | some fuel =>
              if fuel < 0 ∨ fuel > 100 then .error "fuelLevel must be a finite number between 0 and 100"
              else match asStr (lookupField fields "engineStatus") with
              | none => .error "engineStatus must be one of running|idle|off"
              | some status =>
                if status.toLower = "running" ∨ status.toLower = "idle" ∨ status.toLower = "off" then
                  .ok { vehicleId := vid.trim, lat := lat, lng := lng, ts := tsMs,
                        fuelLevel := fuel, engineStatus := status.toLower }
                else .error "engineStatus must be one of running|idle|off"

/-- Embedding of validateTelemetry.  Arrays satisfy the typeof-object test of
the source and then fail the vehicleId check, so they are routed through the
field validation with no readable properties.  All other non-object values
fail the leading typeof test. -/
def validateTelemetry (parseDate : String → Option ℚ) (payload : JVal) :
    Except String NormMsg :=
  match payload with
  | .jnull => .error "payload must be an object"
  | .jbool _ => .error "payload must be an object"
  | .jnum _ => .error "payload must be an object"
  | .jstr _ => .error "payload must be an object"
  | .jarr _ => validateFields parseDate []
  | .jobj fields => validateFields parseDate fields

/-! ## Vehicle cache

Embedding of the VehicleStore class (bounded insertion-ordered map).  The
JavaScript Map is modelled as an association list in insertion order; the
stored entry type is a parameter, as in the source, together with a function
reading the lastSeen instant of an entry (Date.parse of entry.lastSeen; the
result is none when that field does not parse).  The constructor normalises a
non-positive limit to 1000, so theorems assume a positive limit. -/

/-- Insertion-ordered map of a JavaScript Map: key-value pairs, oldest first. -/
abbrev VMap (α : Type) := List (String × α)

/-- Membership test of Map.has. -/
def vmContains (m : VMap α) (id : String) : Bool :=
  m.any (fun e => e.1 = id)

/-- Deletion of Map.delete: removes the first (for a Map, only) binding. -/
def vmEraseKey (id : String) : VMap α → VMap α
  | [] => []
  | e :: rest => if e.1 = id then rest else e :: vmEraseKey id rest

/-- Read of Map.get: first binding of the key. -/
def vmGet (m : VMap α) (id : String) : Option α :=
  match m with
  | [] => none
  | e :: rest => if e.1 = id then some e.2 else vmGet rest id

/-- Embedding of VehicleStore.set: delete an existing binding, append the new
one (preserving recency), then if the size exceeds the limit remove the
oldest key, which is the first key in iteration order. -/
def storeSet (limit : ℕ) (id : String) (v : α) (m : VMap α) : VMap α :=
  let m1 := if vmContains m id then vmEraseKey id m else m
  let m2 := m1 ++ [(id, v)]
  if limit < m2.length then
    match m2.head? with
    | some oldest => vmEraseKey oldest.1 m2
    | none => m2
  else m2

/-- Expired ids collected by the first loop of pruneExpired: entries whose
parsed lastSeen satisfies now - lastSeen >= ttl; entries without a parseable
lastSeen are skipped. -/
def expiredIdsOf (ttl : ℚ) (getLastSeen : α → Option ℚ) (now : ℚ)
    (m : VMap α) : List String :=
  (m.filter (fun e =>
    match getLastSeen e.2 with
    | some t => decide (ttl ≤ now - t)
    | none => false)).map (fun e => e.1)

/-- Second loop of pruneExpired: for each expired id, look the entry up,
delete it and invoke the removal callback with (id, entry).  The callback
returns a flag modelling whether it threw; a throw is logged and the loop
continues, so the result is independent of it.  The invocation trace is
returned alongside the new map. -/
def pruneLoop (cb : String → α → Bool) (ids : List String) (m : VMap α)
    (trace : List (String × α)) : VMap α × List (String × α) :=
  match ids with
  | [] => (m, trace)
  | id :: rest =>
    match vmGet m id with
    | some veh =>
      let _ := cb id veh
      pruneLoop cb rest (vmEraseKey id m) (trace ++ [(id, veh)])
    | none => pruneLoop cb rest m trace

/-- Embedding of VehicleStore.pruneExpired: a no-op when ttl is disabled,
otherwise the collect-then-remove sweep. -/
def pruneExpired (ttl : ℚ) (getLastSeen : α → Option ℚ) (cb : String → α → Bool)
    (now : ℚ) (m : VMap α) : VMap α × List (String × α) :=
  if ttl ≤ 0 then (m, [])
  else pruneLoop cb (expiredIdsOf ttl getLastSeen now m) m []

/-- Operations a client can perform against the cache. -/
inductive CacheOp (α : Type) where
  | get (id : String)
  | set (id : String) (v : α)
  | del (id : String)
  | sweep (now : ℚ)

/-- One cache operation applied to a map. -/
def applyCacheOp (limit : ℕ) (ttl : ℚ) (getLastSeen : α → Option ℚ)
    (cb : String → α → Bool) (m : VMap α) : CacheOp α → VMap α
  | .get _ => m
  | .set id v => storeSet limit id v m
  | .del id => vmEraseKey id m
  | .sweep now => (pruneExpired ttl getLastSeen cb now m).1

/-- Run of a sequence of cache operations from the empty store. -/
def runCacheOps (limit : ℕ) (ttl : ℚ) (getLastSeen : α → Option ℚ)
    (cb : String → α → Bool) (ops : List (CacheOp α)) : VMap α :=
  ops.foldl (applyCacheOp limit ttl getLastSeen cb) []

/-! ## Derived speed

Embedding of haversine and computeSpeed from
src/backend/services/mqtt-service.js.  Coordinates and instants are real
numbers; the isFinite guards of the source are vacuous here because cached
and validated timestamps are parsed finite instants. -/

/-- Two-argument arctangent on the closed first quadrant, which is where the
source applies it (both arguments are square roots).  Matches Math.atan2
there, including atan2 0 0 = 0. -/
noncomputable def jsAtan2 (y x : ℝ) : ℝ :=
  if 0 < x then Real.arctan (y / x)
  else if 0 < y then Real.pi / 2 - Real.arctan (x / y)
  else 0

/-- Embedding of the haversine great-circle distance of the source: inputs in
degrees, Earth radius 6371 km. -/
noncomputable def haversine (lat1 lng1 lat2 lng2 : ℝ) : ℝ :=
  let toRad : ℝ → ℝ := fun deg => deg * (Real.pi / 180)
  let dLat := toRad (lat2 - lat1)
  let dLng := toRad (lng2 - lng1)
  let a := Real.sin (dLat / 2) ^ 2 +
    Real.cos (toRad lat1) * Real.cos (toRad lat2) * Real.sin (dLng / 2) ^ 2
  let c := 2 * jsAtan2 (Real.sqrt a) (Real.sqrt (1 - a))
  6371 * c

/-- Position-and-instant view of a cached entry or validated message, as read
by computeSpeed: coordinates in degrees, timestamp in milliseconds. -/
structure GeoObs where
  lat : ℝ
  lng : ℝ
  ts : ℝ

/-- Embedding of computeSpeed: zero unless the new timestamp is strictly
later, otherwise haversine distance over the elapsed time in hours. -/
noncomputable def computeSpeed (previous current : GeoObs) : ℝ :=
  let deltaMs := current.ts - previous.ts
  if deltaMs ≤ 0 then 0
  else
    let distanceKm := haversine previous.lat previous.lng current.lat current.lng
    let deltaHours := deltaMs / 3600000
    if deltaHours = 0 then 0 else distanceKm / deltaHours

/-- Speed attached to the enriched record by the message handler: zero for a
first observation, computeSpeed against the cached entry otherwise. -/
noncomputable def deriveSpeed (previous : Option GeoObs) (current : GeoObs) : ℝ :=
  match previous with
  | some p => computeSpeed p current
  | none => 0

/-! ## Ingest pipeline

Embedding of the broker message handler of
src/backend/services/mqtt-service.js.  The handler is driven by the outcome
of JSON decoding (none models a decode failure, whose implementation lives in
the host runtime).  The enriched record carries a rational speed computed by
the handler through the geodesy routine, which appears as a function
parameter at this level since its exact value is transcendental. -/

/-- Enriched per-vehicle record kept in the cache and broadcast to
subscribers. -/
structure Vehicle where
  vehicleId : String
  lat : ℚ
  lng : ℚ
  ts : ℚ
  speed : ℚ
  fuelLevel : ℚ
  engineStatus : String
  lastSeen : ℚ
deriving DecidableEq, Repr

/-- Rational-level counterpart of computeSpeed used when enriching, with the
haversine routine as a parameter. -/
def computeSpeedQ (hav : ℚ → ℚ → ℚ → ℚ → ℚ) (previous : Vehicle)
    (current : NormMsg) : ℚ :=
  let deltaMs := current.ts - previous.ts
  if deltaMs ≤ 0 then 0
  else
    let distanceKm := hav previous.lat previous.lng current.lat current.lng
    let deltaHours := deltaMs / 3600000
    if deltaHours = 0 then 0 else distanceKm / deltaHours

/-- Mutable service state touched by the message handler: the two counters,
the rate-window arrival timestamps and the vehicle cache. -/
structure SvcState where
  totalMessages : ℕ
  invalidMessages : ℕ
  timestamps : List ℚ
  store : VMap Vehicle
deriving Repr

/-- Embedding of recordTimestamp from src/backend/utils/message-metrics.js:
append the arrival, then shift leading entries while the oldest one is older
than the window. -/
def recordTimestamp (windowMs : ℚ) (nowMs : ℚ) (stamps : List ℚ) : List ℚ :=
  (stamps ++ [nowMs]).dropWhile (fun t => decide (windowMs < nowMs - t))

/-- Embedding of the broker message handler: decode, validate, enrich with
derived speed and lastSeen, update the cache, count, record the arrival, and
emit the broadcast payload.  Returns the new state together with the record
broadcast through the fan-out, if any. -/
def handleMessage (limit : ℕ) (windowMs : ℚ) (hav : ℚ → ℚ → ℚ → ℚ → ℚ)
    (parseDate : String → Option ℚ) (nowMs : ℚ) (st : SvcState)
    (parsed : Option JVal) : SvcState × Option Vehicle :=
  match parsed with
  | none => ({ st with invalidMessages := st.invalidMessages + 1 }, none)
  | some payload =>
    match validateTelemetry parseDate payload with
    | .error _ => ({ st with invalidMessages := st.invalidMessages + 1 }, none)
    | .ok message =>
      let previous := vmGet st.store message.vehicleId
      let speed := match previous with
        | some p => computeSpeedQ hav p message
        | none => 0
      let enriched : Vehicle :=
        { vehicleId := message.vehicleId, lat := message.lat, lng := message.lng,
          ts := message.ts, speed := speed, fuelLevel := message.fuelLevel,
          engineStatus := message.engineStatus, lastSeen := nowMs }
      ({ st with
          store := storeSet limit message.vehicleId enriched st.store,
          totalMessages := st.totalMessages + 1,
          timestamps := recordTimestamp windowMs nowMs st.timestamps },
        some enriched)

/-! ## Live websocket fan-out

Embedding of the websocket service: subscriber set, snapshot on connect,
broadcast with per-subscriber backpressure.  A subscriber transport is
external state read by sendPayload (readyState, bufferedAmount, and whether
send throws); each processed event carries the transport states in force
while it is handled.  Deliveries are recorded in a log tagged with the index
of the event that produced them. -/

/-- Transport state of one subscriber socket as sendPayload observes it. -/
structure SockState where
  isOpen : Bool
  bufferedAmount : ℕ
  sendOk : Bool
deriving DecidableEq, Repr

/-- Backpressure threshold of the source: 512 KiB. -/
def maxBufferedBytes : ℕ := 512 * 1024

/-- Telemetry block of a vehicle_update payload.  The isFinite guards of
formatVehiclePayload map non-finite numbers to null; rational fields are
always finite, so they always emit a value here. -/
structure TelemetryView where
  timestamp : ℚ
  speed : Option ℚ
  fuelLevel : Option ℚ
  engineStatus : Option String
deriving DecidableEq, Repr

/-- Messages of the fan-out channel: vehicle_update and vehicle_remove. -/
inductive WsMsg where
  | update (version : ℕ) (vehicleId : String) (lat lng : ℚ)
      (telemetry : TelemetryView) (lastSeen : ℚ)
  | remove (version : ℕ) (vehicleId : String)
deriving DecidableEq, Repr

/-- Vehicle the message is about. -/
def wsMsgVehicleId : WsMsg → String
  | .update _ vid _ _ _ _ => vid
  | .remove _ vid => vid

/-- Whether the message is a vehicle_update. -/
def wsMsgIsUpdate : WsMsg → Bool
  | .update _ _ _ _ _ _ => true
  | .remove _ _ => false

/-- Embedding of formatVehiclePayload. -/
def formatVehiclePayload (version : ℕ) (v : Vehicle) : WsMsg :=
  .update version v.vehicleId v.lat v.lng
    { timestamp := v.ts, speed := some v.speed, fuelLevel := some v.fuelLevel,
      engineStatus := some v.engineStatus } v.lastSeen

/-- Embedding of sendPayload: false when the transport is not open, when the
outbound buffer exceeds the threshold (the payload is dropped), or when send
throws; true when the payload is handed to the transport.  The source never
closes the socket here; a false return only makes the caller drop it from the
subscriber set. -/
def sendPayload (env : ℕ → SockState) (sid : ℕ) : Bool :=
  let s := env sid
  if !s.isOpen then false
  else if maxBufferedBytes < s.bufferedAmount then false
  else s.sendOk

/-- Outcome of a broadcast: surviving subscriber set, deliveries made, and
the sockets the service explicitly closed during the broadcast.  The source
performs no socket close in broadcastPayload or sendPayload, so the last list
is empty by construction. -/
structure BroadcastResult where
  clients : List ℕ
  deliveries : List (ℕ × WsMsg)
  closedSockets : List ℕ
deriving DecidableEq, Repr

/-- Embedding of broadcastPayload: iterate the subscriber set in order; a
failed send removes the subscriber, a successful one delivers the payload. -/
def broadcastPayload (env : ℕ → SockState) (cs : List ℕ) (msg : WsMsg) :
    BroadcastResult :=
  { clients := cs.filter (fun sid => sendPayload env sid),
    deliveries := (cs.filter (fun sid => sendPayload env sid)).map
      (fun sid => (sid, msg)),
    closedSockets := [] }

/-- Embedding of sendSnapshot: one payload per cached vehicle in cache
iteration order, stopping at the first failed send. -/
def sendSnapshotLoop (env : ℕ → SockState) (sid : ℕ) (version : ℕ) :
    List Vehicle → List WsMsg
  | [] => []
  | v :: rest =>
    if sendPayload env sid then
      formatVehiclePayload version v :: sendSnapshotLoop env sid version rest
    else []

/-- Events driving the fan-out: a new subscriber connecting, a validated
ingest (cache set + broadcastUpdate), and a TTL expiry (cache removal +
broadcastRemoval).  Each event carries the transport states in force while it
is processed. -/
inductive WsEvent where
  | connect (sid : ℕ) (env : ℕ → SockState)
  | ingest (v : Vehicle) (env : ℕ → SockState)
  | expire (vehicleId : String) (env : ℕ → SockState)

/-- State of the fan-out subsystem: the vehicle cache, the subscriber set in
insertion order, and the delivery log, each entry tagged with the index of
the event that produced it. -/
structure WsState where
  store : VMap Vehicle
  clients : List ℕ
  log : List (ℕ × ℕ × WsMsg)

/-- One event processed against the fan-out state.  On connect the source
adds the socket to the subscriber set and then sends the snapshot; nothing
interleaves on the single-threaded event loop.  On ingest the cache is
updated before broadcastUpdate runs; on expiry pruneExpired removes the entry
and the expiry callback issues broadcastRemoval. -/
def wsStep (limit : ℕ) (version : ℕ) (st : WsState) (idx : ℕ) :
    WsEvent → WsState
  | .connect sid env =>
    let snap := sendSnapshotLoop env sid version (st.store.map (fun e => e.2))
    { store := st.store,
      clients := st.clients ++ [sid],
      log := st.log ++ snap.map (fun m => (idx, sid, m)) }
  | .ingest v env =>
    let r := broadcastPayload env st.clients (formatVehiclePayload version v)
    { store := storeSet limit v.vehicleId v st.store,
      clients := r.clients,
      log := st.log ++ r.deliveries.map (fun d => (idx, d.1, d.2)) }
  | .expire vid env =>
    let r := broadcastPayload env st.clients (.remove version vid)
    { store := vmEraseKey vid st.store,
      clients := r.clients,
      log := st.log ++ r.deliveries.map (fun d => (idx, d.1, d.2)) }

/-- Run of a list of events from a state, numbering events from idx. -/
def runWsAux (limit version : ℕ) (idx : ℕ) (st : WsState) :
    List WsEvent → WsState
  | [] => st
  | ev :: rest => runWsAux limit version (idx + 1) (wsStep limit version st idx ev) rest

/-- Run of a list of events from the initial empty state. -/
def runWs (limit version : ℕ) (events : List WsEvent) : WsState :=
  runWsAux limit version 0 { store := [], clients := [], log := [] } events

/-! ## Telemetry store

Embedding of the telemetry repository: the append-only event table, the
multi-window rollup computation with its upsert transaction, paginated
history queries and windowed aggregate queries.  Timestamps persisted as ISO
or SQLite datetime strings are modelled by their epoch values in seconds;
lexicographic comparison of those strings agrees with numeric comparison of
the epochs. -/

/-- Persisted telemetry event row. -/
structure TEvent where
  eventId : ℕ
  vehicleId : String
  recordedAt : ℕ
  lat : ℚ
  lng : ℚ
  speedKmh : ℚ
  fuelLevel : ℚ
  engineStatus : String
  distanceKm : ℚ
deriving DecidableEq, Repr

/-- Epoch alignment of the source: floor(epoch / window) * window, matching
both the SQL integer division of buildRollupSourceSql and the alignToWindow
helper. -/
def alignToWindow (epoch windowSeconds : ℕ) : ℕ :=
  epoch / windowSeconds * windowSeconds

/-- Largest element of a list of rationals, 0 on the empty list (which the
rollup computation never produces, since every group has a member). -/
def maxD (l : List ℚ) : ℚ :=
  match l with
  | [] => 0
  | h :: t => t.foldl max h

/-- Smallest element of a list of rationals, 0 on the empty list. -/
def minD (l : List ℚ) : ℚ :=
  match l with
  | [] => 0
  | h :: t => t.foldl min h

/-- Row of the telemetry_rollups table. -/
structure RollupRow where
  bucketStart : ℕ
  bucketEnd : ℕ
  vehicleId : String
  avgSpeed : ℚ
  maxSpeed : ℚ
  minFuel : ℚ
  totalDistance : ℚ
  sampleCount : ℕ
deriving DecidableEq, Repr

/-- Byte-order comparison of two character lists, the kernel-computable
rendering of the text ordering SQLite applies to vehicle ids. -/
def charListLe : List Char → List Char → Bool
  | [], _ => true
  | _ :: _, [] => false
  | c :: cs, d :: ds =>
    if c.toNat < d.toNat then true
    else if d.toNat < c.toNat then false
    else charListLe cs ds

/-- Text ordering of the store's ORDER BY clauses on vehicle ids. -/
def strLe (s t : String) : Prop := charListLe s.data t.data = true

instance : DecidableRel strLe := fun s t => by unfold strLe; infer_instance

/-- Order of the GROUP BY output of buildRollupSourceSql: bucket_start
ascending, then vehicle_id ascending. -/
def keyLex (a b : ℕ × String) : Prop :=
  a.1 < b.1 ∨ (a.1 = b.1 ∧ strLe a.2 b.2)

instance : DecidableRel keyLex := fun a b => by unfold keyLex; infer_instance

/-- Group keys (bucket_start, vehicle_id) present among the given events,
in the output order of the grouping query. -/
def rollupKeys (evs : List TEvent) (S : ℕ) : List (ℕ × String) :=
  List.insertionSort keyLex
    ((evs.map (fun e => (alignToWindow e.recordedAt S, e.vehicleId))).dedup)

/-- Events of one group of the grouping query. -/
def groupEvents (evs : List TEvent) (S : ℕ) (k : ℕ × String) : List TEvent :=
  evs.filter (fun e => e.vehicleId = k.2 ∧ alignToWindow e.recordedAt S = k.1)

/-- Aggregates of one group of buildRollupSourceSql: AVG, MAX, MIN, SUM and
COUNT over the group's events. -/
def aggregateGroup (S : ℕ) (k : ℕ × String) (g : List TEvent) : RollupRow :=
  { bucketStart := k.1, bucketEnd := k.1 + S, vehicleId := k.2,
    avgSpeed := (g.map (fun e => e.speedKmh)).sum / (g.length : ℚ),
    maxSpeed := maxD (g.map (fun e => e.speedKmh)),
    minFuel := minD (g.map (fun e => e.fuelLevel)),
    totalDistance := (g.map (fun e => e.distanceKm)).sum,
    sampleCount := g.length }

/-- Embedding of the rollup source query over a half-open recorded_at range:
group the in-range events by vehicle and epoch-aligned bucket and aggregate
each group. -/
def computeWindowRollups (evs : List TEvent) (S : ℕ)
    (startEpoch endEpoch : ℕ) : List RollupRow :=
  let inRange := evs.filter (fun e =>
    decide (startEpoch ≤ e.recordedAt) && decide (e.recordedAt < endEpoch))
  (rollupKeys inRange S).map (fun k => aggregateGroup S k (groupEvents inRange S k))

/-- MIN(recorded_at) over the event table. -/
def earliestEventEpoch (evs : List TEvent) : Option ℕ :=
  match evs.map (fun e => e.recordedAt) with
  | [] => none
  | h :: t => some (t.foldl min h)

/-- Embedding of computeWindowRollups of the source for a forced run (the
runRollupJob entry point passes force = true, so the catch-up extension that
reads the previous rollup end is bypassed): the effective range is the
aligned end override (or now), and the aligned start override (or the aligned
earliest event, to which the start is also clamped when no override is
given). -/
def computeWindowRollupsJob (evs : List TEvent) (S : ℕ) (nowEpoch : ℕ)
    (startOverride endOverride : Option ℕ) : List RollupRow :=
  match earliestEventEpoch evs with
  | none => []
  | some earliest =>
    let effEnd := alignToWindow (endOverride.getD nowEpoch) S
    if effEnd ≤ earliest then []
    else
      let effStart := match startOverride with
        | some s => alignToWindow s S
        | none => alignToWindow earliest S
      if effEnd ≤ effStart then []
      else computeWindowRollups evs S effStart effEnd

/-- Direct aggregation domain of the specification for one bucket: all
stored events of the vehicle whose recordedAt lies in
[bucketStart, bucketStart + S). -/
def bucketEventsOf (evs : List TEvent) (vid : String) (bucketStart S : ℕ) :
    List TEvent :=
  evs.filter (fun e => e.vehicleId = vid ∧
    bucketStart ≤ e.recordedAt ∧ e.recordedAt < bucketStart + S)

/-- Identity of the (bucket_start, bucket_end, vehicle_id) primary key of the
rollup table. -/
def rollupKeyEq (a b : RollupRow) : Bool :=
  decide (a.bucketStart = b.bucketStart ∧ a.bucketEnd = b.bucketEnd ∧
    a.vehicleId = b.vehicleId)

/-- Primary-key discipline of the rollup table: no two rows share the
(bucket_start, bucket_end, vehicle_id) key. -/
def KeyNodup (t : List RollupRow) : Prop :=
  t.Pairwise (fun a b => rollupKeyEq a b = false)

/-- Embedding of the upsert of applyRollups: on a primary-key conflict the
existing row's metrics are replaced in place, otherwise the row is
inserted. -/
def upsertRollup (r : RollupRow) : List RollupRow → List RollupRow
  | [] => [r]
  | x :: rest => if rollupKeyEq x r then r :: rest else x :: upsertRollup r rest

/-- Embedding of the applyRollups transaction: upsert each computed row. -/
def applyRollups (rows : List RollupRow) (t : List RollupRow) : List RollupRow :=
  rows.foldl (fun acc r => upsertRollup r acc) t

/-- Embedding of runRollupJob over a window set: for each window size,
compute the window's rollup rows and upsert them into the table. -/
def runRollupJob (evs : List TEvent) (windows : List ℕ) (nowEpoch : ℕ)
    (startOverride endOverride : Option ℕ) (t : List RollupRow) : List RollupRow :=
  windows.foldl
    (fun acc S => applyRollups (computeWindowRollupsJob evs S nowEpoch startOverride endOverride) acc) t

/-- Order of the history query: recorded_at ascending, event_id ascending. -/
def eventLex (a b : TEvent) : Prop :=
  a.recordedAt < b.recordedAt ∨
    (a.recordedAt = b.recordedAt ∧ a.eventId ≤ b.eventId)

instance : DecidableRel eventLex := fun a b => by unfold eventLex; infer_instance

instance : IsTotal TEvent eventLex where
  total a b := by unfold eventLex; omega

instance : IsTrans TEvent eventLex where
  trans a b c hab hbc := by unfold eventLex at hab hbc ⊢; omega

/-- Sorted view of a set of event rows under the history query's ORDER BY. -/
def sortEvents (l : List TEvent) : List TEvent :=
  List.insertionSort eventLex l

/-- WHERE clauses of queryTelemetryHistory apart from the page token:
optional vehicle list, optional inclusive time bounds. -/
def histFilter (vids : List String) (startSec endSec : Option ℕ)
    (e : TEvent) : Bool :=
  (vids.isEmpty || vids.contains e.vehicleId) &&
  (match startSec with | some s => decide (s ≤ e.recordedAt) | none => true) &&
  (match endSec with | some t => decide (e.recordedAt ≤ t) | none => true)

/-- Page-token clause of the history query: resume strictly after the given
event id, or pass everything when no token is given. -/
def tokenPred (tok : Option ℕ) (e : TEvent) : Bool :=
  match tok with
  | some t => decide (t < e.eventId)
  | none => true

/-- Limit clamping of the source: non-positive limits fall back to 100,
larger ones are capped at 5000. -/
def clampLimit (n : ℕ) : ℕ :=
  if n = 0 then 100 else min n 5000

/-- Embedding of queryTelemetryHistory: filtered rows in ascending
(recorded_at, event_id) order, resumed after the page token by event_id and
truncated to the limit; the continuation token is the last row's event id and
is present exactly when the page is full.  The declarative SQL result (WHERE
then ORDER BY then LIMIT) is rendered with the token filter applied to the
sorted rows. -/
def queryTelemetryHistory (table : List TEvent) (vids : List String)
    (startSec endSec : Option ℕ) (limit : ℕ) (tok : Option ℕ) :
    List TEvent × Option ℕ :=
  let effLimit := clampLimit limit
  let sorted := sortEvents (table.filter (histFilter vids startSec endSec))
  let rows := (sorted.filter (tokenPred tok)).take effLimit
  let nextTok := if rows.length = effLimit
    then rows.getLast?.map (fun e => e.eventId) else none
  (rows, nextTok)

/-- Paging loop of the specification: call history, and while a continuation
token is returned resume with it; fuel bounds the recursion and is chosen
large enough in the theorems. -/
def collectPages (table : List TEvent) (vids : List String)
    (startSec endSec : Option ℕ) (limit : ℕ) : ℕ → Option ℕ → List TEvent
  | 0, _ => []
  | fuel + 1, tok =>
    let q := queryTelemetryHistory table vids startSec endSec limit tok
    match q.2 with
    | none => q.1
    | some t => q.1 ++ collectPages table vids startSec endSec limit fuel (some t)

/-- Unlimited history over the same range: all filtered rows in query
order. -/
def historyAll (table : List TEvent) (vids : List String)
    (startSec endSec : Option ℕ) : List TEvent :=
  sortEvents (table.filter (histFilter vids startSec endSec))

/-! ## Windowed aggregate queries

Embedding of sanitizeRollupWindows and queryHistoricalAggregates.  Bucket
timestamps are epoch seconds; metric fields coming out of the rollup table
are finite rationals, so the isFinite sentinels of the source (negative and
positive infinity accumulators) are rendered with Option, none standing for
an accumulator no row contributed to. -/

/-- Embedding of sanitizeRollupWindows: the base window (falling back to 300
when not positive) merged with the positive configured windows, deduplicated
and sorted ascending.  The result always contains the base window, hence is
never empty. -/
def sanitizeRollupWindows (baseCfg : ℕ) (cfgWindows : List ℕ) : List ℕ :=
  List.insertionSort (· ≤ ·)
    ((if 0 < baseCfg then baseCfg else 300)
      :: cfgWindows.filter (fun w => decide (0 < w))).dedup

/-- Aggregate bucket returned by queryHistoricalAggregates, with the default
aggregate selection (all four metrics). -/
structure AggBucket where
  bucketStart : ℕ
  bucketEnd : ℕ
  sampleCount : ℕ
  avgSpeed : ℚ
  maxSpeed : Option ℚ
  minFuel : Option ℚ
  totalDistance : ℚ
deriving DecidableEq, Repr

/-- WHERE clauses of the rollup read: a span equal to the source window,
optional vehicle list, and the half-open time overlap bounds. -/
def rowFilterAgg (sourceSpan : ℕ) (vids : List String)
    (startSec endSec : Option ℕ) (r : RollupRow) : Bool :=
  decide (r.bucketEnd - r.bucketStart = sourceSpan) &&
  (vids.isEmpty || vids.contains r.vehicleId) &&
  (match startSec with | some s => decide (s < r.bucketEnd) | none => true) &&
  (match endSec with | some t => decide (r.bucketStart < t) | none => true)

/-- Order of the rollup read: bucket_start ascending, vehicle_id
ascending. -/
def rowLex (a b : RollupRow) : Prop :=
  a.bucketStart < b.bucketStart ∨
    (a.bucketStart = b.bucketStart ∧ strLe a.vehicleId b.vehicleId)

instance : DecidableRel rowLex := fun a b => by unfold rowLex; infer_instance

/-- Order of the recombined output: bucket start ascending. -/
def aggLe (a b : AggBucket) : Prop :=
  a.bucketStart ≤ b.bucketStart

instance : DecidableRel aggLe := fun a b => by unfold aggLe; infer_instance

instance : IsTotal AggBucket aggLe where
  total a b := by unfold aggLe; omega

instance : IsTrans AggBucket aggLe where
  trans a b c hab hbc := by unfold aggLe at hab hbc ⊢; omega

/-- Direct (materialised window) translation of a rollup row through
buildMetrics: the average is reconstructed from the stored average times the
sample count, and the max and min are always present since stored metrics
are finite. -/
def directBucket (r : RollupRow) : AggBucket :=
  { bucketStart := r.bucketStart, bucketEnd := r.bucketEnd,
    sampleCount := r.sampleCount,
    avgSpeed := if 0 < r.sampleCount
      then r.avgSpeed * (r.sampleCount : ℚ) / (r.sampleCount : ℚ) else 0,
    maxSpeed := some r.maxSpeed,
    minFuel := some r.minFuel,
    totalDistance := r.totalDistance }

/-- Largest element of a list, none on the empty list; the running
negative-infinity accumulator of the source. -/
def maxOpt (l : List ℚ) : Option ℚ :=
  match l with
  | [] => none
  | h :: t => some (t.foldl max h)

/-- Smallest element of a list, none on the empty list; the running
positive-infinity accumulator of the source. -/
def minOpt (l : List ℚ) : Option ℚ :=
  match l with
  | [] => none
  | h :: t => some (t.foldl min h)

/-- Regrouping path of queryHistoricalAggregates for a window that is not
materialised: source rows are folded into target-aligned buckets keyed by
the floored bucket start (keys in first-appearance order, as a JavaScript
Map); the combined metrics are the sample-count weighted average of speeds,
max of maxima, min of minima and sum of distances; buckets are finally
sorted by start. -/
def regroupRows (resolved : ℕ) (rows : List RollupRow) : List AggBucket :=
  let keys := (rows.map (fun r => alignToWindow r.bucketStart resolved)).dedup
  let buckets := keys.map (fun k =>
    let g := rows.filter (fun r => alignToWindow r.bucketStart resolved = k)
    let n := (g.map (fun r => r.sampleCount)).sum
    { bucketStart := k, bucketEnd := k + resolved,
      sampleCount := n,
      avgSpeed := if 0 < n
        then (g.map (fun r => r.avgSpeed * (r.sampleCount : ℚ))).sum / (n : ℚ)
        else 0,
      maxSpeed := maxOpt (g.map (fun r => r.maxSpeed)),
      minFuel := minOpt (g.map (fun r => r.minFuel)),
      totalDistance := (g.map (fun r => r.totalDistance)).sum : AggBucket })
  List.insertionSort aggLe buckets

/-- Embedding of queryHistoricalAggregates: the requested window is
normalised against the base (smallest) materialised window; the source rows
are those of the resolved window when it is materialised and of the base
window otherwise; on a window mismatch the rows are regrouped. -/
def queryHistoricalAggregates (windows : List ℕ) (table : List RollupRow)
    (vids : List String) (startSec endSec : Option ℕ) (W : ℕ) : List AggBucket :=
  let base := windows.headD 300
  let effective := if 0 < W then W else base
  let resolved := max effective base
  let source := if resolved ∈ windows then resolved else base
  let rows := List.insertionSort rowLex (table.filter (rowFilterAgg source vids startSec endSec))
  if rows.isEmpty then []
  else if resolved = source then rows.map directBucket
  else regroupRows resolved rows

/-- Modelled from the spec (§4.6, non-native window sizes), for comparison
with the implementation: serve a non-materialised window W from the rows of
the smallest materialised window that divides W, recombining metrics; when
no materialised window divides W, use the base window and raise W to it. -/
def specAggregatesSmallestDivisor (windows : List ℕ) (table : List RollupRow)
    (vids : List String) (startSec endSec : Option ℕ) (W : ℕ) : List AggBucket :=
  let base := windows.headD 300
  match (windows.filter (fun S => decide (S ∣ W))).head? with
  | some source =>
    let rows := List.insertionSort rowLex (table.filter (rowFilterAgg source vids startSec endSec))
    if rows.isEmpty then []
    else if W = source then rows.map directBucket
    else regroupRows W rows
  | none =>
    let rows := List.insertionSort rowLex (table.filter (rowFilterAgg base vids startSec endSec))
    if rows.isEmpty then [] else rows.map directBucket

/-! ## Concrete fixtures

Concrete inputs used to instantiate the theorems below. -/

/-- Trivial geodesy routine for instantiations. -/
def havZero : ℚ → ℚ → ℚ → ℚ → ℚ := fun _ _ _ _ => 0

/-- Host date parser accepting nothing, for instantiations. -/
def parseDateNone : String → Option ℚ := fun _ => none

/-- Initial service state. -/
def st0 : SvcState := { totalMessages := 0, invalidMessages := 0, timestamps := [], store := [] }

/-- First observation of a vehicle. -/
def cexVehicleA : Vehicle :=
  { vehicleId := "veh-1", lat := 1, lng := 2, ts := 0, speed := 0,
    fuelLevel := 50, engineStatus := "running", lastSeen := 0 }

/-- Later observation of the same vehicle. -/
def cexVehicleA2 : Vehicle :=
  { cexVehicleA with lat := 3, ts := 300000, lastSeen := 300000 }

/-- Transport environment: every socket open, drained and sendable. -/
def envOpenFree : ℕ → SockState :=
  fun _ => { isOpen := true, bufferedAmount := 0, sendOk := true }

/-- Transport environment: every socket open but with 600 KiB buffered,
above the 512 KiB threshold. -/
def envOpenBusy : ℕ → SockState :=
  fun _ => { isOpen := true, bufferedAmount := 600 * 1024, sendOk := true }

/-- Fan-out trace: a vehicle is cached, a subscriber connects while its
transport buffer is above the threshold, then a fresh update for the same
vehicle arrives once the buffer has drained. -/
def cexSnapshotEvents : List WsEvent :=
  [.ingest cexVehicleA envOpenFree, .connect 0 envOpenBusy,
   .ingest cexVehicleA2 envOpenFree]

/-- Stored event with the smaller event id but the later recorded_at. -/
def cexEventEarlyId : TEvent :=
  { eventId := 1, vehicleId := "veh-1", recordedAt := 10, lat := 0, lng := 0,
    speedKmh := 0, fuelLevel := 50, engineStatus := "running", distanceKm := 0 }

/-- Stored event with the larger event id but the earlier recorded_at. -/
def cexEventLateId : TEvent :=
  { cexEventEarlyId with eventId := 2, recordedAt := 5 }

/-- Event table whose event-id order disagrees with its recorded_at
order. -/
def cexHistoryTable : List TEvent := [cexEventEarlyId, cexEventLateId]

/-- Small event table: two events of one vehicle in different 300 s buckets
and one event of another vehicle. -/
def witEvents : List TEvent :=
  [{ eventId := 1, vehicleId := "veh-1", recordedAt := 100, lat := 0, lng := 0,
     speedKmh := 10, fuelLevel := 80, engineStatus := "running", distanceKm := 1 },
   { eventId := 2, vehicleId := "veh-1", recordedAt := 400, lat := 0, lng := 0,
     speedKmh := 20, fuelLevel := 60, engineStatus := "running", distanceKm := 2 },
   { eventId := 3, vehicleId := "veh-2", recordedAt := 120, lat := 0, lng := 0,
     speedKmh := 30, fuelLevel := 40, engineStatus := "idle", distanceKm := 3 }]

/-- Event table whose event ids are assigned in recorded_at order, as the
ingest path produces when messages arrive in timestamp order. -/
def witHistoryTable : List TEvent :=
  [{ eventId := 1, vehicleId := "veh-1", recordedAt := 100, lat := 0, lng := 0,
     speedKmh := 10, fuelLevel := 80, engineStatus := "running", distanceKm := 1 },
   { eventId := 2, vehicleId := "veh-2", recordedAt := 120, lat := 0, lng := 0,
     speedKmh := 30, fuelLevel := 40, engineStatus := "idle", distanceKm := 3 },
   { eventId := 3, vehicleId := "veh-1", recordedAt := 400, lat := 0, lng := 0,
     speedKmh := 20, fuelLevel := 60, engineStatus := "running", distanceKm := 2 }]

/-- Materialised 300 s rollup row of the first five minutes. -/
def cexRollupBase : RollupRow :=
  { bucketStart := 0, bucketEnd := 300, vehicleId := "veh-1", avgSpeed := 20,
    maxSpeed := 20, minFuel := 50, totalDistance := 1, sampleCount := 1 }

/-- Materialised 500 s rollup row of the same period. -/
def cexRollupFive : RollupRow :=
  { bucketStart := 0, bucketEnd := 500, vehicleId := "veh-1", avgSpeed := 10,
    maxSpeed := 10, minFuel := 60, totalDistance := 2, sampleCount := 1 }

/-- Rollup table holding both materialised windows. -/
def cexRollupTable : List RollupRow := [cexRollupBase, cexRollupFive]

/-! ## Theorems -/

/-- C1: every broker message increments exactly one of the two counters: a
payload that fails JSON decoding or validation increments invalidMessages
and leaves totalMessages unchanged, a payload that validates increments
totalMessages and leaves invalidMessages unchanged, and one of the two
always happens. -/
theorem ingest_counter_totality (limit : ℕ) (windowMs : ℚ)
    (hav : ℚ → ℚ → ℚ → ℚ → ℚ) (parseDate : String → Option ℚ) (nowMs : ℚ)
    (st : SvcState) (parsed : Option JVal) :
    ((parsed = none ∨ ∃ v e, parsed = some v ∧ validateTelemetry parseDate v = .error e) →
      (handleMessage limit windowMs hav parseDate nowMs st parsed).1.invalidMessages
          = st.invalidMessages + 1 ∧
        (handleMessage limit windowMs hav parseDate nowMs st parsed).1.totalMessages
          = st.totalMessages) ∧
    ((∃ v m, parsed = some v ∧ validateTelemetry parseDate v = .ok m) →
      (handleMessage limit windowMs hav parseDate nowMs st parsed).1.totalMessages
          = st.totalMessages + 1 ∧
        (handleMessage limit windowMs hav parseDate nowMs st parsed).1.invalidMessages
          = st.invalidMessages) ∧
    (((handleMessage limit windowMs hav parseDate nowMs st parsed).1.invalidMessages
          = st.invalidMessages + 1 ∧
        (handleMessage limit windowMs hav parseDate nowMs st parsed).1.totalMessages
          = st.totalMessages) ∨
      ((handleMessage limit windowMs hav parseDate nowMs st parsed).1.totalMessages
          = st.totalMessages + 1 ∧
        (handleMessage limit windowMs hav parseDate nowMs st parsed).1.invalidMessages
          = st.invalidMessages)) := by
  cases parsed with
  | none => simp [handleMessage]
  | some v =>
    cases hv : validateTelemetry parseDate v with
    | error e =>
      refine ⟨fun _ => ?_, fun hex => ?_, ?_⟩
      · simp [handleMessage, hv]
      · obtain ⟨v2, m, hv2, hok⟩ := hex
        cases hv2
        rw [hv] at hok
        cases hok
      · left
        simp [handleMessage, hv]
    | ok m =>
      refine ⟨fun hex => ?_, fun _ => ?_, ?_⟩
      · rcases hex with h | ⟨v2, e, hv2, herr⟩
        · cases h
        · cases hv2
          rw [hv] at herr
          cases herr
      · simp [handleMessage, hv]
      · right
        simp [handleMessage, hv]

/-- Instantiation of C1 at a concrete undecodable payload. -/
theorem ingest_counter_totality_witness :
    (handleMessage 1000 60000 havZero parseDateNone 0 st0 none).1.invalidMessages
        = st0.invalidMessages + 1 ∧
      (handleMessage 1000 60000 havZero parseDateNone 0 st0 none).1.totalMessages
        = st0.totalMessages :=
  (ingest_counter_totality 1000 60000 havZero parseDateNone 0 st0 none).1
    (Or.inl rfl)

/-- C3: when a cached previous observation exists and its timestamp is
strictly earlier, the derived speed equals the haversine distance between
the two positions divided by the elapsed time in hours (an exact identity,
hence within any relative tolerance); for equal or non-increasing
timestamps, and for a first observation, the derived speed is 0. -/
theorem derived_speed_spec (p c : GeoObs) :
    (p.ts < c.ts →
      deriveSpeed (some p) c
        = haversine p.lat p.lng c.lat c.lng / ((c.ts - p.ts) / 3600000)) ∧
    (c.ts ≤ p.ts → deriveSpeed (some p) c = 0) ∧
    deriveSpeed none c = 0 := by
  refine ⟨fun hlt => ?_, fun hle => ?_, rfl⟩
  · have hpos : ¬ c.ts - p.ts ≤ 0 := by linarith
    have hne : (c.ts - p.ts) / 3600000 ≠ 0 := by
      have : c.ts - p.ts ≠ 0 := by linarith
      positivity
    simp [deriveSpeed, computeSpeed, hpos, hne]
  · have hle2 : c.ts - p.ts ≤ 0 := by linarith
    simp [deriveSpeed, computeSpeed, hle2]

/-- Instantiation of C3 at two observations one hour apart. -/
theorem derived_speed_spec_witness :
    (GeoObs.mk 1 2 0).ts < (GeoObs.mk 3 4 3600000).ts ∧
      deriveSpeed (some (GeoObs.mk 1 2 0)) (GeoObs.mk 3 4 3600000)
        = haversine 1 2 3 4 / ((3600000 - 0) / 3600000) :=
  ⟨by norm_num,
    (derived_speed_spec (GeoObs.mk 1 2 0) (GeoObs.mk 3 4 3600000)).1 (by norm_num)⟩

/-- Erasing a key never lengthens the map. -/
theorem length_vmEraseKey_le (id : String) (m : VMap α) :
    (vmEraseKey id m).length ≤ m.length := by
  induction m with
  | nil => simp [vmEraseKey]
  | cons e rest ih =>
    by_cases h : e.1 = id
    · simp [vmEraseKey, h]
    · simp only [vmEraseKey, if_neg h, List.length_cons]
      omega

/-- Erasing the key of the head element drops exactly the head. -/
theorem vmEraseKey_cons_self (e : String × α) (t : VMap α) :
    vmEraseKey e.1 (e :: t) = t := by
  simp [vmEraseKey]

/-- Set keeps the map within the limit. -/
theorem length_storeSet_le (limit : ℕ) (id : String) (v : α)
    (m : VMap α) (h : m.length ≤ limit) :
    (storeSet limit id v m).length ≤ limit := by
  have h1 : (if vmContains m id then vmEraseKey id m else m).length ≤ m.length := by
    split
    · exact length_vmEraseKey_le ..
    · exact le_rfl
  simp only [storeSet]
  set m1 := if vmContains m id then vmEraseKey id m else m with hm1
  split
  · cases hm : m1 with
    | nil => simp [hm, vmEraseKey]
    | cons a t =>
      have : (a :: t ++ [(id, v)]).head? = some a := rfl
      simp only [hm, this]
      have := vmEraseKey_cons_self a (t ++ [(id, v)])
      simp only [List.cons_append, this]
      have : t.length + 1 ≤ m.length := by
        have := h1
        rw [hm] at this
        simpa using this
      simp
      omega
  · rename_i hle
    exact le_of_not_lt hle

/-- The sweep loop never lengthens the map. -/
theorem length_pruneLoop_le (cb : String → α → Bool) (ids : List String)
    (m : VMap α) (trace : List (String × α)) :
    (pruneLoop cb ids m trace).1.length ≤ m.length := by
  induction ids generalizing m trace with
  | nil => simp [pruneLoop]
  | cons id rest ih =>
    simp only [pruneLoop]
    cases hget : vmGet m id with
    | some veh =>
      calc (pruneLoop cb rest (vmEraseKey id m) (trace ++ [(id, veh)])).1.length
          ≤ (vmEraseKey id m).length := ih ..
        _ ≤ m.length := length_vmEraseKey_le ..
    | none => exact ih ..

/-- The expiry sweep never lengthens the map. -/
theorem length_pruneExpired_le (ttl : ℚ) (getLastSeen : α → Option ℚ)
    (cb : String → α → Bool) (now : ℚ) (m : VMap α) :
    (pruneExpired ttl getLastSeen cb now m).1.length ≤ m.length := by
  unfold pruneExpired
  split
  · exact le_rfl
  · exact length_pruneLoop_le ..

/-- C2: starting from the empty store with a positive capacity, the size is
at most the capacity after every sequence of get, set, delete and sweep
operations; and whenever a set makes the intermediate map (existing binding
removed, new binding appended) exceed the capacity, the final map is that
intermediate map with its first entry, the least recently inserted one,
removed. -/
theorem cache_bound_and_eviction (limit : ℕ) (ttl : ℚ)
    (getLastSeen : α → Option ℚ) (cb : String → α → Bool) (_hlim : 0 < limit)
    (ops : List (CacheOp α)) (m : VMap α) (id : String) (v : α) :
    (runCacheOps limit ttl getLastSeen cb ops).length ≤ limit ∧
    (limit < ((if vmContains m id then vmEraseKey id m else m) ++ [(id, v)]).length →
      storeSet limit id v m
        = ((if vmContains m id then vmEraseKey id m else m) ++ [(id, v)]).tail) := by
  constructor
  · have main : ∀ (ops : List (CacheOp α)) (acc : VMap α), acc.length ≤ limit →
        (ops.foldl (applyCacheOp limit ttl getLastSeen cb) acc).length ≤ limit := by
      intro ops
      induction ops with
      | nil => intro acc h; simpa using h
      | cons op rest ih =>
        intro acc h
        refine ih _ ?_
        cases op with
        | get _ => simpa [applyCacheOp] using h
        | set oid ov => exact length_storeSet_le limit oid ov acc h
        | del oid =>
          calc (applyCacheOp limit ttl getLastSeen cb acc (.del oid)).length
              ≤ acc.length := length_vmEraseKey_le ..
            _ ≤ limit := h
        | sweep now =>
          calc (applyCacheOp limit ttl getLastSeen cb acc (.sweep now)).length
              ≤ acc.length := length_pruneExpired_le ..
            _ ≤ limit := h
    exact main ops [] (by simp)
  · intro hover
    simp only [storeSet]
    set m1 := if vmContains m id then vmEraseKey id m else m with hm1
    cases hm : m1 with
    | nil => simp [hm] at hover ⊢; omega
    | cons a t =>
      have hov2 : limit < (a :: t ++ [(id, v)]).length := by
        rw [hm] at hover; exact hover
      have hhead : (a :: t ++ [(id, v)]).head? = some a := rfl
      simp only [hov2, if_pos, hhead]
      simpa using vmEraseKey_cons_self a (t ++ [(id, v)])

/-- Instantiation of C2: capacity 2, three inserts of distinct ids. -/
theorem cache_bound_and_eviction_witness :
    0 < 2 ∧
      (runCacheOps 2 0 (fun _ : ℕ => none) (fun _ _ => true)
        [.set "a" 0, .set "b" 1, .set "c" 2]).length ≤ 2 :=
  ⟨by decide,
    (cache_bound_and_eviction 2 0 (fun _ : ℕ => none) (fun _ _ => true)
      (by decide) [.set "a" 0, .set "b" 1, .set "c" 2] [] "x" 0).1⟩

/-- Reading the key of the head element yields its value. -/
theorem vmGet_cons_self (e : String × α) (rest : VMap α) :
    vmGet (e :: rest) e.1 = some e.2 := by
  simp [vmGet]

/-- The sweep loop leaves an entry alone when no listed id matches its
key. -/
theorem pruneLoop_cons_skip (cb : String → α → Bool) (e : String × α)
    (ids : List String) (m : VMap α) (trace : List (String × α))
    (hne : ∀ id ∈ ids, id ≠ e.1) :
    pruneLoop cb ids (e :: m) trace
      = ((e :: (pruneLoop cb ids m trace).1), (pruneLoop cb ids m trace).2) := by
  induction ids generalizing m trace with
  | nil => simp [pruneLoop]
  | cons id rest ih =>
    have hid : id ≠ e.1 := hne id (List.mem_cons_self ..)
    have hkey : ¬ e.1 = id := fun h => hid h.symm
    have hrest : ∀ i ∈ rest, i ≠ e.1 := fun i hi => hne i (List.mem_cons_of_mem _ hi)
    simp only [pruneLoop, vmGet, if_neg hkey]
    cases hget : vmGet m id with
    | some veh =>
      simp only [hget, vmEraseKey, if_neg hkey]
      exact ih _ _ hrest
    | none =>
      simp only [hget]
      exact ih _ _ hrest

/-- Running the sweep loop over the collected expired ids removes exactly
the entries matching the collection predicate, preserves the others in
order, and appends one trace element per removed entry. -/
theorem pruneLoop_filter_spec (cb : String → α → Bool) (p : String × α → Bool) :
    ∀ (m : VMap α) (trace : List (String × α)),
      (m.map Prod.fst).Nodup →
      pruneLoop cb ((m.filter p).map Prod.fst) m trace
        = (m.filter (fun e => !(p e)), trace ++ m.filter p) := by
  intro m
  induction m with
  | nil => intro trace _; simp [pruneLoop]
  | cons e rest ih =>
    intro trace hnd
    have he : e.1 ∉ rest.map Prod.fst := by
      have := hnd
      simp only [List.map_cons, List.nodup_cons] at this
      exact this.1
    have hrest : (rest.map Prod.fst).Nodup := by
      have := hnd
      simp only [List.map_cons, List.nodup_cons] at this
      exact this.2
    by_cases hp : p e
    · simp only [List.filter_cons, hp, if_pos, List.map_cons]
      simp only [pruneLoop, vmGet_cons_self, vmEraseKey_cons_self]
      rw [ih (trace ++ [(e.1, e.2)]) hrest]
      simp [hp]
    · have hids : ∀ id ∈ (rest.filter p).map Prod.fst, id ≠ e.1 := by
        intro id hid
        intro hEq
        apply he
        rw [← hEq]
        have hsub : (rest.filter p).map Prod.fst ⊆ rest.map Prod.fst := by
          intro x hx
          simp only [List.mem_map] at hx ⊢
          obtain ⟨y, hy, hxy⟩ := hx
          exact ⟨y, List.mem_of_mem_filter hy, hxy⟩
        exact hsub hid
      have hpe : p e = false := by simp [hp]
      simp only [List.filter_cons, hpe, if_neg Bool.false_ne_true]
      rw [pruneLoop_cons_skip cb e _ rest trace hids]
      rw [ih trace hrest]
      simp [hpe]

/-- C8: with a positive ttl, the expiry sweep at instant now removes exactly
the entries whose parsed lastSeen satisfies now - lastSeen >= ttl, leaves
every other entry untouched in order, and invokes the removal callback
exactly once per removed entry with its id and entry; the result does not
depend on the callback, so a callback that throws (modelled by its returned
flag, which is discarded after logging) never stops the sweep. -/
theorem ttl_sweep_exact (ttl : ℚ) (getLastSeen : α → Option ℚ)
    (cb : String → α → Bool) (now : ℚ) (m : VMap α) (httl : 0 < ttl)
    (hnd : (m.map Prod.fst).Nodup) :
    pruneExpired ttl getLastSeen cb now m
      = (m.filter (fun e => !(match getLastSeen e.2 with
            | some t => decide (ttl ≤ now - t)
            | none => false)),
         m.filter (fun e => match getLastSeen e.2 with
            | some t => decide (ttl ≤ now - t)
            | none => false)) := by
  unfold pruneExpired
  rw [if_neg (not_le.mpr httl)]
  unfold expiredIdsOf
  have := pruneLoop_filter_spec cb
    (fun e => match getLastSeen e.2 with
      | some t => decide (ttl ≤ now - t)
      | none => false) m [] hnd
  rw [this]
  simp

/-- Instantiation of C8: two entries, one stale, one fresh, and a callback
that throws. -/
theorem ttl_sweep_exact_witness :
    ((0:ℚ) < 50 ∧ (([("a", (0:ℚ)), ("b", 100)].map Prod.fst).Nodup)) ∧
      pruneExpired 50 (fun t : ℚ => some t) (fun _ _ => false) 100
          [("a", 0), ("b", 100)]
        = ([("b", 100)], [("a", 0)]) :=
  ⟨⟨by norm_num, by decide⟩, by
    rw [ttl_sweep_exact 50 (fun t : ℚ => some t) (fun _ _ => false) 100
      [("a", 0), ("b", 100)] (by norm_num) (by decide)]
    norm_num [List.filter, Prod.ext_iff]⟩

/-- C7 counterexample: a subscriber whose transport is open with 600 KiB
buffered, above the 512 KiB threshold, is dropped from the subscriber set
without receiving the broadcast, but the service does not close its socket:
the broadcast closes no socket, refuting the claim that such a subscriber is
both closed and removed. -/
theorem backpressure_close_counterexample :
    maxBufferedBytes < (envOpenBusy 0).bufferedAmount ∧
    (envOpenBusy 0).isOpen = true ∧
    (broadcastPayload envOpenBusy [0] (.remove 1 "veh-1")).clients = [] ∧
    (broadcastPayload envOpenBusy [0] (.remove 1 "veh-1")).deliveries = [] ∧
    (broadcastPayload envOpenBusy [0] (.remove 1 "veh-1")).closedSockets = [] := by
  decide

/-- C7 amended: during a broadcast, a subscriber whose outbound buffer
exceeds the threshold, or whose transport is not open, receives nothing and
is removed from the subscriber set within that broadcast (though its socket
is not closed by the service), and subsequent broadcasts deliver nothing to
it. -/
theorem backpressure_enforcement (env : ℕ → SockState) (cs : List ℕ)
    (msg : WsMsg) (s : ℕ) (_hs : s ∈ cs)
    (hdrop : (env s).isOpen = false ∨ maxBufferedBytes < (env s).bufferedAmount) :
    s ∉ (broadcastPayload env cs msg).clients ∧
    (∀ d ∈ (broadcastPayload env cs msg).deliveries, d.1 ≠ s) ∧
    (∀ (env2 : ℕ → SockState) (msg2 : WsMsg),
      ∀ d ∈ (broadcastPayload env2 (broadcastPayload env cs msg).clients msg2).deliveries,
        d.1 ≠ s) := by
  have hsend : sendPayload env s = false := by
    unfold sendPayload
    rcases hdrop with h | h
    · simp [h]
    · cases ho : (env s).isOpen <;> simp [ho, h]
  refine ⟨?_, ?_, ?_⟩
  · intro hmem
    simp only [broadcastPayload, List.mem_filter] at hmem
    rw [hsend] at hmem
    exact Bool.false_ne_true hmem.2
  · intro d hd
    simp only [broadcastPayload, List.mem_map] at hd
    obtain ⟨sid, hsid, hdsid⟩ := hd
    intro hds
    rw [← hdsid] at hds
    simp only at hds
    rw [hds] at hsid
    simp only [List.mem_filter] at hsid
    rw [hsend] at hsid
    exact Bool.false_ne_true hsid.2
  · intro env2 msg2 d hd
    simp only [broadcastPayload, List.mem_map] at hd
    obtain ⟨sid, hsid, hdsid⟩ := hd
    intro hds
    rw [← hdsid] at hds
    simp only at hds
    rw [hds] at hsid
    simp only [List.mem_filter, List.mem_filter] at hsid
    rw [hsend] at hsid
    exact Bool.false_ne_true hsid.1.2

/-- Instantiation of the amended C7 at a subscriber with 600 KiB
buffered. -/
theorem backpressure_enforcement_witness :
    (0 ∈ ([0] : List ℕ) ∧
      ((envOpenBusy 0).isOpen = false ∨
        maxBufferedBytes < (envOpenBusy 0).bufferedAmount)) ∧
    (0 ∉ (broadcastPayload envOpenBusy [0] (.remove 1 "veh-1")).clients ∧
    (∀ d ∈ (broadcastPayload envOpenBusy [0] (.remove 1 "veh-1")).deliveries,
      d.1 ≠ 0) ∧
    (∀ (env2 : ℕ → SockState) (msg2 : WsMsg),
      ∀ d ∈ (broadcastPayload env2
          (broadcastPayload envOpenBusy [0] (.remove 1 "veh-1")).clients
          msg2).deliveries, d.1 ≠ 0)) :=
  ⟨⟨by decide, Or.inr (by decide)⟩,
    backpressure_enforcement envOpenBusy [0] (.remove 1 "veh-1") 0 (by decide)
      (Or.inr (by decide))⟩

/-- Running an appended event list splits into two runs. -/
theorem runWsAux_append (limit version : ℕ) (l1 l2 : List WsEvent) :
    ∀ (idx : ℕ) (st : WsState),
      runWsAux limit version idx st (l1 ++ l2)
        = runWsAux limit version (idx + l1.length)
            (runWsAux limit version idx st l1) l2 := by
  induction l1 with
  | nil => intro idx st; simp [runWsAux]
  | cons ev t ih =>
    intro idx st
    have harith : idx + (t.length + 1) = (idx + 1) + t.length := by omega
    simp only [List.cons_append, runWsAux, List.length_cons, harith]
    exact ih ..

/-- Every log entry of a step run carries an event index below the final
index. -/
theorem runWsAux_log_bound (limit version : ℕ) (evs : List WsEvent) :
    ∀ (idx : ℕ) (st : WsState),
      (∀ e ∈ st.log, e.1 < idx) →
      ∀ e ∈ (runWsAux limit version idx st evs).log, e.1 < idx + evs.length := by
  induction evs with
  | nil => intro idx st h e he; simpa using h e he
  | cons ev t ih =>
    intro idx st h e he
    have hstep : ∀ x ∈ (wsStep limit version st idx ev).log, x.1 < idx + 1 := by
      intro x hx
      cases ev with
      | connect sid env =>
        simp only [wsStep, List.mem_append, List.mem_map] at hx
        rcases hx with hx | ⟨m, _, hm⟩
        · exact lt_trans (h x hx) (Nat.lt_succ_self idx)
        · rw [← hm]; omega
      | ingest v env =>
        simp only [wsStep, List.mem_append, List.mem_map] at hx
        rcases hx with hx | ⟨m, _, hm⟩
        · exact lt_trans (h x hx) (Nat.lt_succ_self idx)
        · rw [← hm]; omega
      | expire vid env =>
        simp only [wsStep, List.mem_append, List.mem_map] at hx
        rcases hx with hx | ⟨m, _, hm⟩
        · exact lt_trans (h x hx) (Nat.lt_succ_self idx)
        · rw [← hm]; omega
    have := ih (idx + 1) (wsStep limit version st idx ev) hstep e
      (by simpa [runWsAux] using he)
    simp only [List.length_cons]
    omega

/-- A run only appends to the log, and every appended entry carries an index
at least the starting one. -/
theorem runWsAux_log_extends (limit version : ℕ) (evs : List WsEvent) :
    ∀ (idx : ℕ) (st : WsState),
      ∃ rest, (runWsAux limit version idx st evs).log = st.log ++ rest ∧
        ∀ e ∈ rest, idx ≤ e.1 := by
  induction evs with
  | nil => intro idx st; exact ⟨[], by simp [runWsAux], by simp⟩
  | cons ev t ih =>
    intro idx st
    obtain ⟨rest, hrest, hge⟩ := ih (idx + 1) (wsStep limit version st idx ev)
    have hstep : ∃ newE, (wsStep limit version st idx ev).log = st.log ++ newE ∧
        ∀ e ∈ newE, e.1 = idx := by
      cases ev with
      | connect sid env =>
        refine ⟨_, rfl, ?_⟩
        intro e he
        simp only [List.mem_map] at he
        obtain ⟨m, _, hm⟩ := he
        rw [← hm]
      | ingest v env =>
        refine ⟨_, rfl, ?_⟩
        intro e he
        simp only [List.mem_map] at he
        obtain ⟨m, _, hm⟩ := he
        rw [← hm]
      | expire vid env =>
        refine ⟨_, rfl, ?_⟩
        intro e he
        simp only [List.mem_map] at he
        obtain ⟨m, _, hm⟩ := he
        rw [← hm]
    obtain ⟨newE, hnew, hidx⟩ := hstep
    refine ⟨newE ++ rest, ?_, ?_⟩
    · simp only [runWsAux]
      rw [hrest, hnew, List.append_assoc]
    · intro e he
      rcases List.mem_append.mp he with he | he
      · exact le_of_eq (hidx e he).symm
      · exact le_of_lt (Nat.lt_of_lt_of_le (Nat.lt_succ_self idx) (hge e he))

/-- The delivery log of a run is monotone in the event index. -/
theorem runWsAux_log_monotone (limit version : ℕ) (evs : List WsEvent) :
    ∀ (idx : ℕ) (st : WsState),
      (∀ e ∈ st.log, e.1 < idx) →
      st.log.Pairwise (fun a b => a.1 ≤ b.1) →
      (runWsAux limit version idx st evs).log.Pairwise (fun a b => a.1 ≤ b.1) := by
  induction evs with
  | nil => intro idx st _ h; simpa [runWsAux] using h
  | cons ev t ih =>
    intro idx st hb hp
    have hstepAll : ∃ newE, (wsStep limit version st idx ev).log = st.log ++ newE ∧
        ∀ e ∈ newE, e.1 = idx := by
      cases ev with
      | connect sid env =>
        refine ⟨_, rfl, fun e he => ?_⟩
        simp only [List.mem_map] at he
        obtain ⟨m, _, hm⟩ := he
        rw [← hm]
      | ingest v env =>
        refine ⟨_, rfl, fun e he => ?_⟩
        simp only [List.mem_map] at he
        obtain ⟨m, _, hm⟩ := he
        rw [← hm]
      | expire vid env =>
        refine ⟨_, rfl, fun e he => ?_⟩
        simp only [List.mem_map] at he
        obtain ⟨m, _, hm⟩ := he
        rw [← hm]
    obtain ⟨newE, hnew, hidx⟩ := hstepAll
    have hb2 : ∀ e ∈ (wsStep limit version st idx ev).log, e.1 < idx + 1 := by
      intro e he
      rw [hnew] at he
      rcases List.mem_append.mp he with he | he
      · exact lt_trans (hb e he) (Nat.lt_succ_self idx)
      · rw [hidx e he]; omega
    have hp2 : (wsStep limit version st idx ev).log.Pairwise (fun a b => a.1 ≤ b.1) := by
      rw [hnew]
      rw [List.pairwise_append]
      refine ⟨hp, ?_, ?_⟩
      · exact List.Pairwise.imp (fun h => le_of_eq h)
          (List.pairwise_of_forall_mem_list (fun a ha b hb2 => by
            rw [hidx a ha, hidx b hb2]))
      · intro a ha b hbm
        rw [hidx b hbm]
        exact le_of_lt (hb a ha)
    have := ih (idx + 1) (wsStep limit version st idx ev) hb2 hp2
    simpa [runWsAux] using this

/-- A fully successful snapshot sends one payload per cached vehicle. -/
theorem sendSnapshotLoop_success (env : ℕ → SockState) (sid version : ℕ)
    (hsend : sendPayload env sid = true) :
    ∀ l : List Vehicle,
      sendSnapshotLoop env sid version l = l.map (formatVehiclePayload version) := by
  intro l
  induction l with
  | nil => rfl
  | cons v t ih => simp [sendSnapshotLoop, hsend, ih]

/-- C9 amended: when a subscriber connects with its transport open, its
buffer at or below the backpressure threshold and its sends succeeding, the
messages it receives during the connect event are exactly one vehicle_update
per vehicle present in the cache at that moment, in cache iteration order;
every log entry of earlier events has a smaller event index, every one of
later events a larger one, and the delivery log is monotone in the event
index, so those snapshot messages precede any update emitted after the
connect. -/
theorem snapshot_then_updates (limit version : ℕ) (evs1 evs2 : List WsEvent)
    (sid : ℕ) (env : ℕ → SockState)
    (hopen : (env sid).isOpen = true)
    (hbuf : (env sid).bufferedAmount ≤ maxBufferedBytes)
    (hsendok : (env sid).sendOk = true) :
    ((runWs limit version (evs1 ++ .connect sid env :: evs2)).log.filter
        (fun e => decide (e.1 = evs1.length) && decide (e.2.1 = sid))).map
        (fun e => e.2.2)
      = (runWs limit version evs1).store.map
          (fun kv => formatVehiclePayload version kv.2) ∧
    (∀ kv ∈ (runWs limit version evs1).store,
      (evs1.length, sid, formatVehiclePayload version kv.2)
        ∈ (runWs limit version (evs1 ++ .connect sid env :: evs2)).log) ∧
    (runWs limit version (evs1 ++ .connect sid env :: evs2)).log.Pairwise
      (fun a b => a.1 ≤ b.1) := by
  have hnl : ¬ maxBufferedBytes < (env sid).bufferedAmount := not_lt.mpr hbuf
  have hsend : sendPayload env sid = true := by
    simp [sendPayload, hopen, hnl, hsendok]
  set st1 := runWs limit version evs1 with hst1
  set i := evs1.length with hi
  have hrun : runWs limit version (evs1 ++ .connect sid env :: evs2)
      = runWsAux limit version (i + 1)
          (wsStep limit version st1 i (.connect sid env)) evs2 := by
    rw [runWs, runWsAux_append]
    simp only [Nat.zero_add]
    rfl
  obtain ⟨rest, hlog2, hge⟩ := runWsAux_log_extends limit version evs2 (i + 1)
    (wsStep limit version st1 i (.connect sid env))
  have hstep_log : (wsStep limit version st1 i (.connect sid env)).log
      = st1.log ++ ((st1.store.map (fun kv => formatVehiclePayload version kv.2)).map
          (fun m => (i, sid, m))) := by
    simp only [wsStep]
    rw [sendSnapshotLoop_success env sid version hsend]
    simp [List.map_map, Function.comp]
  have hbound1 : ∀ e ∈ st1.log, e.1 < i := by
    intro e he
    have hh : st1.log = (runWsAux limit version 0
        { store := [], clients := [], log := [] } evs1).log := by
      rw [hst1]; rfl
    have := runWsAux_log_bound limit version evs1 0
      { store := [], clients := [], log := [] } (by simp) e (by rw [← hh]; exact he)
    omega
  have hfinal : (runWs limit version (evs1 ++ .connect sid env :: evs2)).log
      = (st1.log ++ ((st1.store.map (fun kv => formatVehiclePayload version kv.2)).map
          (fun m => (i, sid, m)))) ++ rest := by
    rw [hrun, hlog2, hstep_log]
  refine ⟨?_, ?_, ?_⟩
  · rw [hfinal]
    rw [List.filter_append, List.filter_append]
    have hf1 : st1.log.filter
        (fun e => decide (e.1 = i) && decide (e.2.1 = sid)) = [] := by
      rw [List.filter_eq_nil_iff]
      intro a ha
      have := hbound1 a ha
      simp only [Bool.and_eq_true, decide_eq_true_eq]
      intro hcontra
      omega
    have hf2 : ((st1.store.map (fun kv => formatVehiclePayload version kv.2)).map
          (fun m => (i, sid, m))).filter
        (fun e => decide (e.1 = i) && decide (e.2.1 = sid))
        = (st1.store.map (fun kv => formatVehiclePayload version kv.2)).map
          (fun m => (i, sid, m)) := by
      rw [List.filter_eq_self]
      intro a ha
      simp only [List.mem_map] at ha
      obtain ⟨m, _, hm⟩ := ha
      rw [← hm]
      simp
    have hf3 : rest.filter
        (fun e => decide (e.1 = i) && decide (e.2.1 = sid)) = [] := by
      rw [List.filter_eq_nil_iff]
      intro a ha
      have := hge a ha
      simp only [Bool.and_eq_true, decide_eq_true_eq]
      intro hcontra
      omega
    rw [hf1, hf2, hf3, List.nil_append, List.append_nil]
    simp [List.map_map, Function.comp]
  · intro kv hkv
    rw [hfinal]
    refine List.mem_append.mpr (Or.inl (List.mem_append.mpr (Or.inr ?_)))
    refine List.mem_map.mpr ⟨formatVehiclePayload version kv.2, ?_, rfl⟩
    exact List.mem_map.mpr ⟨kv, hkv, rfl⟩
  · rw [runWs]
    exact runWsAux_log_monotone limit version _ 0 _ (by simp) (by simp)

/-- C9 counterexample for the claim as stated: vehicle veh-1 is cached when
subscriber 0 connects, but the subscriber's buffer is above the threshold
during the connect, so the snapshot send fails silently and the subscriber
stays attached; the only message it ever receives for veh-1 is the update of
the later ingest event, with no earlier message for that vehicle. -/
theorem snapshot_then_updates_counterexample :
    (runWs 1000 1 [.ingest cexVehicleA envOpenFree]).store.map Prod.fst
      = ["veh-1"] ∧
    (runWs 1000 1 cexSnapshotEvents).clients = [0] ∧
    (runWs 1000 1 cexSnapshotEvents).log
      = [(2, 0, formatVehiclePayload 1 cexVehicleA2)] ∧
    wsMsgVehicleId (formatVehiclePayload 1 cexVehicleA2) = "veh-1" := by
  refine ⟨rfl, rfl, rfl, rfl⟩

/-- Instantiation of the amended C9: one cached vehicle, a subscriber with a
drained open transport. -/
theorem snapshot_then_updates_witness :
    ((envOpenFree 0).isOpen = true ∧
      (envOpenFree 0).bufferedAmount ≤ maxBufferedBytes ∧
      (envOpenFree 0).sendOk = true) ∧
    (((runWs 1000 1 ([.ingest cexVehicleA envOpenFree]
          ++ .connect 0 envOpenFree :: [])).log.filter
        (fun e => decide (e.1 = [WsEvent.ingest cexVehicleA envOpenFree].length)
          && decide (e.2.1 = 0))).map (fun e => e.2.2)
      = (runWs 1000 1 [.ingest cexVehicleA envOpenFree]).store.map
          (fun kv => formatVehiclePayload 1 kv.2) ∧
    (∀ kv ∈ (runWs 1000 1 [.ingest cexVehicleA envOpenFree]).store,
      ([WsEvent.ingest cexVehicleA envOpenFree].length, 0,
          formatVehiclePayload 1 kv.2)
        ∈ (runWs 1000 1 ([.ingest cexVehicleA envOpenFree]
            ++ .connect 0 envOpenFree :: [])).log) ∧
    (runWs 1000 1 ([.ingest cexVehicleA envOpenFree]
        ++ .connect 0 envOpenFree :: [])).log.Pairwise
      (fun a b => a.1 ≤ b.1)) :=
  ⟨⟨rfl, by decide, rfl⟩,
    snapshot_then_updates 1000 1 [.ingest cexVehicleA envOpenFree] []
      0 envOpenFree rfl (by decide) rfl⟩

/-- Epoch alignment floors. -/
theorem alignToWindow_le (n S : ℕ) : alignToWindow n S ≤ n :=
  Nat.div_mul_le_self n S

/-- An epoch lies below the end of its aligned bucket. -/
theorem lt_alignToWindow_add (n S : ℕ) (hS : 0 < S) :
    n < alignToWindow n S + S := by
  have h1 := Nat.mod_add_div' n S
  have h2 := Nat.mod_lt n hS
  unfold alignToWindow
  omega

/-- Aligned epochs are multiples of the window. -/
theorem alignToWindow_dvd (n S : ℕ) : S ∣ alignToWindow n S :=
  dvd_mul_left S (n / S)

/-- An epoch inside an aligned bucket aligns to that bucket's start. -/
theorem alignToWindow_eq_of_between (n b S : ℕ) (hS : 0 < S) (hd : S ∣ b)
    (h1 : b ≤ n) (h2 : n < b + S) : alignToWindow n S = b := by
  obtain ⟨q, hq⟩ := hd
  have hb : b = q * S := by rw [hq, mul_comm]
  have hle : q ≤ n / S := (Nat.le_div_iff_mul_le hS).mpr (by omega)
  have hlt : n / S < q + 1 := (Nat.div_lt_iff_lt_mul hS).mpr
    (by rw [add_mul, one_mul]; omega)
  unfold alignToWindow
  have heq : n / S = q := by omega
  rw [heq, ← hb]

/-- A window multiple below an epoch stays below its alignment. -/
theorem alignToWindow_ge_of_dvd_le (a n S : ℕ) (hS : 0 < S) (hd : S ∣ a)
    (h : a ≤ n) : a ≤ alignToWindow n S := by
  obtain ⟨q, hq⟩ := hd
  have hb : a = q * S := by rw [hq, mul_comm]
  have hle : q ≤ n / S := (Nat.le_div_iff_mul_le hS).mpr (by omega)
  calc a = q * S := hb
    _ ≤ n / S * S := Nat.mul_le_mul_right S hle
    _ = alignToWindow n S := rfl

/-- The aligned bucket of an epoch below a window multiple ends at or before
it. -/
theorem alignToWindow_add_le_of_lt (n b S : ℕ) (hS : 0 < S) (hd : S ∣ b)
    (h : n < b) : alignToWindow n S + S ≤ b := by
  obtain ⟨q, hq⟩ := hd
  have hb : b = q * S := by rw [hq, mul_comm]
  have hlt : n / S < q := (Nat.div_lt_iff_lt_mul hS).mpr (by omega)
  have : (n / S + 1) * S ≤ q * S := Nat.mul_le_mul_right S hlt
  unfold alignToWindow
  rw [add_mul, one_mul] at this
  omega

/-- Over an aligned range, the events of a group of the rollup source query
are exactly the stored events of the vehicle inside the group's bucket. -/
theorem groupEvents_inRange_eq (evs : List TEvent) (S a b : ℕ)
    (k : ℕ × String) (hS : 0 < S) (ha : S ∣ a) (hb : S ∣ b) (e0 : TEvent)
    (h0a : a ≤ e0.recordedAt) (h0b : e0.recordedAt < b)
    (hk1 : alignToWindow e0.recordedAt S = k.1) :
    groupEvents (evs.filter (fun e =>
        decide (a ≤ e.recordedAt) && decide (e.recordedAt < b))) S k
      = bucketEventsOf evs k.2 k.1 S := by
  have hdk : S ∣ k.1 := hk1 ▸ alignToWindow_dvd e0.recordedAt S
  have hab : a ≤ k.1 := hk1 ▸ alignToWindow_ge_of_dvd_le a e0.recordedAt S hS ha h0a
  have hbb : k.1 + S ≤ b := hk1 ▸ alignToWindow_add_le_of_lt e0.recordedAt b S hS hb h0b
  unfold groupEvents bucketEventsOf
  rw [List.filter_filter]
  apply List.filter_congr
  intro x _
  have hbool : ∀ (b1 b2 : Bool), (b1 = true ↔ b2 = true) → b1 = b2 := by decide
  apply hbool
  simp only [Bool.and_eq_true, decide_eq_true_eq]
  constructor
  · rintro ⟨⟨hvid, halign⟩, _, _⟩
    refine ⟨hvid, ?_, ?_⟩
    · rw [← halign]; exact alignToWindow_le ..
    · rw [← halign]; exact lt_alignToWindow_add _ _ hS
  · rintro ⟨hvid, h1, h2⟩
    have halign := alignToWindow_eq_of_between x.recordedAt k.1 S hS hdk h1 h2
    exact ⟨⟨hvid, halign⟩, le_trans hab h1, lt_of_lt_of_le h2 hbb⟩

/-- Over an aligned range, every row of the rollup source query carries a
bucket of the row's span starting at the aligned epoch of its events, and
its metrics are the direct aggregation over exactly the stored events of the
vehicle inside that bucket. -/
theorem computeWindowRollups_correct (evs : List TEvent) (S a b : ℕ)
    (hS : 0 < S) (ha : S ∣ a) (hb : S ∣ b) :
    ∀ r ∈ computeWindowRollups evs S a b,
      r.bucketEnd = r.bucketStart + S ∧
      S ∣ r.bucketStart ∧
      bucketEventsOf evs r.vehicleId r.bucketStart S ≠ [] ∧
      (∀ e ∈ bucketEventsOf evs r.vehicleId r.bucketStart S,
        alignToWindow e.recordedAt S = r.bucketStart) ∧
      r.sampleCount = (bucketEventsOf evs r.vehicleId r.bucketStart S).length ∧
      r.avgSpeed = ((bucketEventsOf evs r.vehicleId r.bucketStart S).map
          (fun e => e.speedKmh)).sum
        / ((bucketEventsOf evs r.vehicleId r.bucketStart S).length : ℚ) ∧
      r.maxSpeed = maxD ((bucketEventsOf evs r.vehicleId r.bucketStart S).map
          (fun e => e.speedKmh)) ∧
      r.minFuel = minD ((bucketEventsOf evs r.vehicleId r.bucketStart S).map
          (fun e => e.fuelLevel)) ∧
      r.totalDistance = ((bucketEventsOf evs r.vehicleId r.bucketStart S).map
          (fun e => e.distanceKm)).sum := by
  intro r hr
  simp only [computeWindowRollups] at hr
  obtain ⟨k, hkmem, hkr⟩ := List.mem_map.mp hr
  have hkmem2 : k ∈ (List.filter (fun e =>
      decide (a ≤ e.recordedAt) && decide (e.recordedAt < b)) evs).map
        (fun e => (alignToWindow e.recordedAt S, e.vehicleId)) := by
    unfold rollupKeys at hkmem
    exact List.mem_dedup.mp ((List.mem_insertionSort keyLex).mp hkmem)
  obtain ⟨e0, he0R, hke⟩ := List.mem_map.mp hkmem2
  have he0cond := (List.mem_filter.mp he0R).2
  have he0 : e0 ∈ evs := (List.mem_filter.mp he0R).1
  simp only [Bool.and_eq_true, decide_eq_true_eq] at he0cond
  have hk1 : alignToWindow e0.recordedAt S = k.1 := by rw [← hke]
  have hk2 : e0.vehicleId = k.2 := by rw [← hke]
  have hgroup := groupEvents_inRange_eq evs S a b k hS ha hb e0
    he0cond.1 he0cond.2 hk1
  rw [hgroup] at hkr
  have hdk : S ∣ k.1 := hk1 ▸ alignToWindow_dvd e0.recordedAt S
  have hrs : r.bucketStart = k.1 := by rw [← hkr]; rfl
  have hrv : r.vehicleId = k.2 := by rw [← hkr]; rfl
  have hre : r.bucketEnd = k.1 + S := by rw [← hkr]; rfl
  have he0g : e0 ∈ bucketEventsOf evs k.2 k.1 S := by
    unfold bucketEventsOf
    refine List.mem_filter.mpr ⟨he0, ?_⟩
    simp only [decide_eq_true_eq]
    refine ⟨hk2, ?_, ?_⟩
    · rw [← hk1]; exact alignToWindow_le ..
    · rw [← hk1]; exact lt_alignToWindow_add _ _ hS
  refine ⟨by rw [hre, hrs], by rw [hrs]; exact hdk, ?_, ?_, ?_, ?_, ?_, ?_, ?_⟩
  · rw [hrv, hrs]
    exact List.ne_nil_of_mem he0g
  · intro e he
    rw [hrv, hrs] at he
    have hcond := (List.mem_filter.mp he).2
    simp only [decide_eq_true_eq] at hcond
    rw [hrs]
    exact alignToWindow_eq_of_between e.recordedAt k.1 S hS hdk hcond.2.1 hcond.2.2
  · rw [hrv, hrs, ← hkr]; rfl
  · rw [hrv, hrs, ← hkr]; rfl
  · rw [hrv, hrs, ← hkr]; rfl
  · rw [hrv, hrs, ← hkr]; rfl
  · rw [hrv, hrs, ← hkr]; rfl

/-- C4: every rollup row produced by the rollup job for window S has
bucketEnd = bucketStart + S, with bucketStart the epoch alignment
floor(recordedAt / S) * S of each of its events, and its metrics (avgSpeed,
maxSpeed, minFuel, totalDistance, sampleCount) equal the direct aggregation
over exactly the stored events of that vehicle whose recordedAt lies in
[bucketStart, bucketEnd). -/
theorem rollup_bucket_correct (evs : List TEvent) (S nowEpoch : ℕ)
    (startOverride endOverride : Option ℕ) (hS : 0 < S) :
    ∀ r ∈ computeWindowRollupsJob evs S nowEpoch startOverride endOverride,
      r.bucketEnd = r.bucketStart + S ∧
      S ∣ r.bucketStart ∧
      bucketEventsOf evs r.vehicleId r.bucketStart S ≠ [] ∧
      (∀ e ∈ bucketEventsOf evs r.vehicleId r.bucketStart S,
        alignToWindow e.recordedAt S = r.bucketStart) ∧
      r.sampleCount = (bucketEventsOf evs r.vehicleId r.bucketStart S).length ∧
      r.avgSpeed = ((bucketEventsOf evs r.vehicleId r.bucketStart S).map
          (fun e => e.speedKmh)).sum
        / ((bucketEventsOf evs r.vehicleId r.bucketStart S).length : ℚ) ∧
      r.maxSpeed = maxD ((bucketEventsOf evs r.vehicleId r.bucketStart S).map
          (fun e => e.speedKmh)) ∧
      r.minFuel = minD ((bucketEventsOf evs r.vehicleId r.bucketStart S).map
          (fun e => e.fuelLevel)) ∧
      r.totalDistance = ((bucketEventsOf evs r.vehicleId r.bucketStart S).map
          (fun e => e.distanceKm)).sum := by
  intro r hr
  simp only [computeWindowRollupsJob] at hr
  cases he : earliestEventEpoch evs with
  | none => rw [he] at hr; simp at hr
  | some earliest =>
    rw [he] at hr
    simp only at hr
    split at hr
    · simp at hr
    · split at hr
      · simp at hr
      · refine computeWindowRollups_correct evs S _ _ hS ?_ (alignToWindow_dvd ..) r hr
        cases startOverride with
        | none => exact alignToWindow_dvd ..
        | some s => exact alignToWindow_dvd ..

/-- Instantiation of C4 on a three-event table: the job produces three
bucket rows and each satisfies the aggregation identity. -/
theorem rollup_bucket_correct_witness :
    0 < 300 ∧
    (computeWindowRollupsJob witEvents 300 1000 none none).length = 3 ∧
    ∀ r ∈ computeWindowRollupsJob witEvents 300 1000 none none,
      r.bucketEnd = r.bucketStart + 300 ∧
      300 ∣ r.bucketStart ∧
      bucketEventsOf witEvents r.vehicleId r.bucketStart 300 ≠ [] ∧
      (∀ e ∈ bucketEventsOf witEvents r.vehicleId r.bucketStart 300,
        alignToWindow e.recordedAt 300 = r.bucketStart) ∧
      r.sampleCount = (bucketEventsOf witEvents r.vehicleId r.bucketStart 300).length ∧
      r.avgSpeed = ((bucketEventsOf witEvents r.vehicleId r.bucketStart 300).map
          (fun e => e.speedKmh)).sum
        / ((bucketEventsOf witEvents r.vehicleId r.bucketStart 300).length : ℚ) ∧
      r.maxSpeed = maxD ((bucketEventsOf witEvents r.vehicleId r.bucketStart 300).map
          (fun e => e.speedKmh)) ∧
      r.minFuel = minD ((bucketEventsOf witEvents r.vehicleId r.bucketStart 300).map
          (fun e => e.fuelLevel)) ∧
      r.totalDistance = ((bucketEventsOf witEvents r.vehicleId r.bucketStart 300).map
          (fun e => e.distanceKm)).sum :=
  ⟨by decide, by rfl,
    rollup_bucket_correct witEvents 300 1000 none none (by decide)⟩

/-- The rollup key identity is reflexive. -/
theorem rollupKeyEq_refl (r : RollupRow) : rollupKeyEq r r = true := by
  simp [rollupKeyEq]

/-- The rollup key identity is symmetric. -/
theorem rollupKeyEq_symm (a b : RollupRow) : rollupKeyEq a b = rollupKeyEq b a := by
  have hbool : ∀ (b1 b2 : Bool), (b1 = true ↔ b2 = true) → b1 = b2 := by decide
  apply hbool
  simp only [rollupKeyEq, decide_eq_true_eq]
  constructor
  · rintro ⟨h1, h2, h3⟩; exact ⟨h1.symm, h2.symm, h3.symm⟩
  · rintro ⟨h1, h2, h3⟩; exact ⟨h1.symm, h2.symm, h3.symm⟩

/-- Two rows with the same key agree on key identity with any third row. -/
theorem rollupKeyEq_congr (y r z : RollupRow) (h : rollupKeyEq y r = true) :
    rollupKeyEq r z = rollupKeyEq y z := by
  simp only [rollupKeyEq, decide_eq_true_eq] at h
  obtain ⟨h1, h2, h3⟩ := h
  simp [rollupKeyEq, h1, h2, h3]

/-- Rows whose spans differ never share a key. -/
theorem rollupKeyEq_false_of_span (a b : RollupRow) (Sa Sb : ℕ)
    (ha : a.bucketEnd = a.bucketStart + Sa) (hb : b.bucketEnd = b.bucketStart + Sb)
    (hS : Sa ≠ Sb) : rollupKeyEq a b = false := by
  by_contra hcon
  have : rollupKeyEq a b = true := by
    cases h : rollupKeyEq a b
    · exact absurd h hcon
    · rfl
  simp only [rollupKeyEq, decide_eq_true_eq] at this
  obtain ⟨h1, h2, _⟩ := this
  omega

/-- Upserting a row already present, in a table where its key identifies it
uniquely, leaves the table unchanged. -/
theorem upsertRollup_of_mem_uniq (r : RollupRow) :
    ∀ t : List RollupRow, r ∈ t → (∀ x ∈ t, rollupKeyEq x r = true → x = r) →
      upsertRollup r t = t := by
  intro t
  induction t with
  | nil => intro h; cases h
  | cons y rest ih =>
    intro hmem huniq
    by_cases hk : rollupKeyEq y r = true
    · have hy : y = r := huniq y (List.mem_cons_self ..) hk
      subst hy
      simp [upsertRollup, hk]
    · have hkf : rollupKeyEq y r = false := by
        cases h : rollupKeyEq y r
        · rfl
        · exact absurd h hk
      have hmem2 : r ∈ rest := by
        rcases List.mem_cons.mp hmem with h | h
        · exfalso; apply hk; rw [h]; exact rollupKeyEq_refl y
        · exact h
      simp only [upsertRollup, hkf, Bool.false_eq_true, if_false]
      rw [ih hmem2 (fun x hx => huniq x (List.mem_cons_of_mem _ hx))]

/-- In a key-unique table, a key identifies at most one row. -/
theorem keyNodup_uniq (t : List RollupRow) (hnd : KeyNodup t) (r : RollupRow)
    (hmem : r ∈ t) : ∀ x ∈ t, rollupKeyEq x r = true → x = r := by
  induction t with
  | nil => intro x hx; cases hx
  | cons y rest ih =>
    have hy : ∀ z ∈ rest, rollupKeyEq y z = false := (List.pairwise_cons.mp hnd).1
    have hrest : KeyNodup rest := (List.pairwise_cons.mp hnd).2
    intro x hx hkx
    rcases List.mem_cons.mp hmem with hr | hr
    · rcases List.mem_cons.mp hx with hxy | hxy
      · rw [hxy, hr]
      · exfalso
        have := hy x hxy
        rw [hr] at hkx
        rw [rollupKeyEq_symm] at this
        rw [hkx] at this
        cases this
    · rcases List.mem_cons.mp hx with hxy | hxy
      · exfalso
        have := hy r hr
        rw [← hxy] at this
        rw [hkx] at this
        cases this
      · exact ih hrest hr x hxy hkx

/-- A row stays in the table through an upsert of a row with another key. -/
theorem mem_upsertRollup_of_ne (x r : RollupRow) :
    ∀ t : List RollupRow, x ∈ t → rollupKeyEq x r = false →
      x ∈ upsertRollup r t := by
  intro t
  induction t with
  | nil => intro h; cases h
  | cons y rest ih =>
    intro hmem hne
    by_cases hk : rollupKeyEq y r = true
    · simp only [upsertRollup, hk, if_true]
      rcases List.mem_cons.mp hmem with h | h
      · exfalso; rw [h] at hne; rw [hne] at hk; cases hk
      · exact List.mem_cons_of_mem _ h
    · have hkf : rollupKeyEq y r = false := by
        cases h : rollupKeyEq y r
        · rfl
        · exact absurd h hk
      simp only [upsertRollup, hkf, Bool.false_eq_true, if_false]
      rcases List.mem_cons.mp hmem with h | h
      · rw [h]; exact List.mem_cons_self ..
      · exact List.mem_cons_of_mem _ (ih h hne)

/-- The upserted row is in the result. -/
theorem mem_upsertRollup_self (r : RollupRow) :
    ∀ t : List RollupRow, r ∈ upsertRollup r t := by
  intro t
  induction t with
  | nil => exact List.mem_singleton.mpr rfl
  | cons y rest ih =>
    by_cases hk : rollupKeyEq y r = true
    · simp [upsertRollup, hk]
    · have hkf : rollupKeyEq y r = false := by
        cases h : rollupKeyEq y r
        · rfl
        · exact absurd h hk
      simp only [upsertRollup, hkf, Bool.false_eq_true, if_false]
      exact List.mem_cons_of_mem _ ih

/-- Every row of an upsert result is an old row or the upserted one. -/
theorem mem_of_mem_upsertRollup (z r : RollupRow) :
    ∀ t : List RollupRow, z ∈ upsertRollup r t → z ∈ t ∨ z = r := by
  intro t
  induction t with
  | nil =>
    intro h
    right
    simpa [upsertRollup] using h
  | cons y rest ih =>
    intro h
    by_cases hk : rollupKeyEq y r = true
    · simp only [upsertRollup, hk, if_true] at h
      rcases List.mem_cons.mp h with h | h
      · exact Or.inr h
      · exact Or.inl (List.mem_cons_of_mem _ h)
    · have hkf : rollupKeyEq y r = false := by
        cases hc : rollupKeyEq y r
        · rfl
        · exact absurd hc hk
      simp only [upsertRollup, hkf, Bool.false_eq_true, if_false] at h
      rcases List.mem_cons.mp h with h | h
      · exact Or.inl (h ▸ List.mem_cons_self ..)
      · rcases ih h with h2 | h2
        · exact Or.inl (List.mem_cons_of_mem _ h2)
        · exact Or.inr h2

/-- Upserts preserve the primary-key discipline. -/
theorem keyNodup_upsertRollup (r : RollupRow) :
    ∀ t : List RollupRow, KeyNodup t → KeyNodup (upsertRollup r t) := by
  intro t
  induction t with
  | nil =>
    intro _
    simp [upsertRollup, KeyNodup]
  | cons y rest ih =>
    intro hnd
    have hy : ∀ z ∈ rest, rollupKeyEq y z = false := (List.pairwise_cons.mp hnd).1
    have hrest : KeyNodup rest := (List.pairwise_cons.mp hnd).2
    by_cases hk : rollupKeyEq y r = true
    · simp only [upsertRollup, hk, if_true]
      refine List.pairwise_cons.mpr ⟨?_, hrest⟩
      intro z hz
      rw [rollupKeyEq_congr y r z hk]
      exact hy z hz
    · have hkf : rollupKeyEq y r = false := by
        cases hc : rollupKeyEq y r
        · rfl
        · exact absurd hc hk
      simp only [upsertRollup, hkf, Bool.false_eq_true, if_false]
      refine List.pairwise_cons.mpr ⟨?_, ih hrest⟩
      intro z hz
      rcases mem_of_mem_upsertRollup z r rest hz with h | h
      · exact hy z h
      · rw [h]; exact hkf

/-- The apply transaction preserves the primary-key discipline. -/
theorem keyNodup_applyRollups (rows : List RollupRow) :
    ∀ t : List RollupRow, KeyNodup t → KeyNodup (applyRollups rows t) := by
  induction rows with
  | nil => intro t ht; simpa [applyRollups] using ht
  | cons r rs ih =>
    intro t ht
    simp only [applyRollups, List.foldl_cons] at *
    exact ih _ (keyNodup_upsertRollup r t ht)

/-- A row colliding with none of the applied rows survives the apply
transaction. -/
theorem mem_applyRollups_of_no_collision (x : RollupRow) (rows : List RollupRow) :
    ∀ t : List RollupRow, x ∈ t → (∀ r ∈ rows, rollupKeyEq x r = false) →
      x ∈ applyRollups rows t := by
  induction rows with
  | nil => intro t hx _; simpa [applyRollups] using hx
  | cons r rs ih =>
    intro t hx hcol
    simp only [applyRollups, List.foldl_cons]
    exact ih _ (mem_upsertRollup_of_ne x r t hx (hcol r (List.mem_cons_self ..)))
      (fun r2 h2 => hcol r2 (List.mem_cons_of_mem _ h2))

/-- Every applied row of a key-distinct batch is in the resulting table. -/
theorem mem_applyRollups_self (rows : List RollupRow) :
    ∀ t : List RollupRow, KeyNodup rows → ∀ r ∈ rows, r ∈ applyRollups rows t := by
  induction rows with
  | nil => intro t _ r hr; cases hr
  | cons r0 rs ih =>
    intro t hnd r hr
    have hy : ∀ z ∈ rs, rollupKeyEq r0 z = false := (List.pairwise_cons.mp hnd).1
    have hrest : KeyNodup rs := (List.pairwise_cons.mp hnd).2
    simp only [applyRollups, List.foldl_cons]
    rcases List.mem_cons.mp hr with h | h
    · subst h
      exact mem_applyRollups_of_no_collision r rs _
        (mem_upsertRollup_self r t) hy
    · exact ih _ hrest r h

/-- Applying rows that are all already present and uniquely keyed changes
nothing. -/
theorem applyRollups_fix (rows : List RollupRow) :
    ∀ t : List RollupRow, KeyNodup t → (∀ r ∈ rows, r ∈ t) →
      applyRollups rows t = t := by
  induction rows with
  | nil => intro t _ _; simp [applyRollups]
  | cons r rs ih =>
    intro t ht hmem
    simp only [applyRollups, List.foldl_cons]
    have hfix : upsertRollup r t = t :=
      upsertRollup_of_mem_uniq r t (hmem r (List.mem_cons_self ..))
        (keyNodup_uniq t ht r (hmem r (List.mem_cons_self ..)))
    rw [hfix]
    exact ih t ht (fun r2 h2 => hmem r2 (List.mem_cons_of_mem _ h2))

/-- Every row of the window-S rollup job spans exactly S seconds. -/
theorem computeWindowRollupsJob_span (evs : List TEvent) (S nowEpoch : ℕ)
    (startOverride endOverride : Option ℕ) :
    ∀ r ∈ computeWindowRollupsJob evs S nowEpoch startOverride endOverride,
      r.bucketEnd = r.bucketStart + S := by
  intro r hr
  simp only [computeWindowRollupsJob] at hr
  cases he : earliestEventEpoch evs with
  | none => rw [he] at hr; simp at hr
  | some earliest =>
    rw [he] at hr
    simp only at hr
    split at hr
    · simp at hr
    · split at hr
      · simp at hr
      · simp only [computeWindowRollups] at hr
        obtain ⟨k, _, hkr⟩ := List.mem_map.mp hr
        rw [← hkr]
        rfl

/-- The rows of one rollup job are pairwise distinct in key. -/
theorem computeWindowRollupsJob_keyNodup (evs : List TEvent) (S nowEpoch : ℕ)
    (startOverride endOverride : Option ℕ) :
    KeyNodup (computeWindowRollupsJob evs S nowEpoch startOverride endOverride) := by
  have hcore : ∀ a b : ℕ, KeyNodup (computeWindowRollups evs S a b) := by
    intro a b
    simp only [computeWindowRollups, KeyNodup]
    rw [List.pairwise_map]
    have hnd : (rollupKeys (evs.filter (fun e =>
        decide (a ≤ e.recordedAt) && decide (e.recordedAt < b))) S).Nodup := by
      unfold rollupKeys
      exact ((List.perm_insertionSort keyLex _).nodup_iff).mpr (List.nodup_dedup _)
    refine List.Pairwise.imp ?_ hnd
    intro k1 k2 hne
    cases hc : rollupKeyEq (aggregateGroup S k1 _) (aggregateGroup S k2 _)
    · rfl
    · exfalso
      simp only [rollupKeyEq, decide_eq_true_eq, aggregateGroup] at hc
      exact hne (Prod.ext hc.1 hc.2.2)
  simp only [computeWindowRollupsJob]
  cases he : earliestEventEpoch evs with
  | none => simp [KeyNodup]
  | some earliest =>
    simp only
    split
    · simp [KeyNodup]
    · split
      · simp [KeyNodup]
      · exact hcore _ _

/-- The run of a job over a window set preserves the primary-key
discipline. -/
theorem keyNodup_runRollupJob (evs : List TEvent) (nowEpoch : ℕ)
    (startOverride endOverride : Option ℕ) (windows : List ℕ) :
    ∀ t : List RollupRow, KeyNodup t →
      KeyNodup (runRollupJob evs windows nowEpoch startOverride endOverride t) := by
  induction windows with
  | nil => intro t ht; simpa [runRollupJob] using ht
  | cons S rest ih =>
    intro t ht
    simp only [runRollupJob, List.foldl_cons] at *
    exact ih _ (keyNodup_applyRollups _ t ht)

/-- A row colliding with no job row survives the whole run. -/
theorem mem_runRollupJob_of_no_collision (evs : List TEvent) (nowEpoch : ℕ)
    (startOverride endOverride : Option ℕ) (x : RollupRow) (windows : List ℕ) :
    ∀ t : List RollupRow, x ∈ t →
      (∀ S ∈ windows,
        ∀ r ∈ computeWindowRollupsJob evs S nowEpoch startOverride endOverride,
          rollupKeyEq x r = false) →
      x ∈ runRollupJob evs windows nowEpoch startOverride endOverride t := by
  induction windows with
  | nil => intro t hx _; simpa [runRollupJob] using hx
  | cons S rest ih =>
    intro t hx hcol
    simp only [runRollupJob, List.foldl_cons] at *
    exact ih _ (mem_applyRollups_of_no_collision x _ t hx
        (hcol S (List.mem_cons_self ..)))
      (fun S2 h2 => hcol S2 (List.mem_cons_of_mem _ h2))

/-- After a run over distinct windows, every job row of every window is in
the table. -/
theorem mem_runRollupJob_self (evs : List TEvent) (nowEpoch : ℕ)
    (startOverride endOverride : Option ℕ) (windows : List ℕ)
    (hw : windows.Nodup) :
    ∀ t : List RollupRow, ∀ S ∈ windows,
      ∀ r ∈ computeWindowRollupsJob evs S nowEpoch startOverride endOverride,
        r ∈ runRollupJob evs windows nowEpoch startOverride endOverride t := by
  induction windows with
  | nil => intro t S hS; cases hS
  | cons S0 rest ih =>
    intro t S hS r hr
    have hnotin : S0 ∉ rest := (List.nodup_cons.mp hw).1
    have hrest : rest.Nodup := (List.nodup_cons.mp hw).2
    simp only [runRollupJob, List.foldl_cons]
    rcases List.mem_cons.mp hS with h | h
    · subst h
      have hin : r ∈ applyRollups
          (computeWindowRollupsJob evs S nowEpoch startOverride endOverride) t :=
        mem_applyRollups_self _ t
          (computeWindowRollupsJob_keyNodup evs S nowEpoch startOverride endOverride)
          r hr
      have hspan := computeWindowRollupsJob_span evs S nowEpoch
        startOverride endOverride r hr
      refine mem_runRollupJob_of_no_collision evs nowEpoch startOverride endOverride
        r rest _ hin ?_
      intro S2 hS2 r2 hr2
      have hspan2 := computeWindowRollupsJob_span evs S2 nowEpoch
        startOverride endOverride r2 hr2
      have hne : S ≠ S2 := fun hEq => hnotin (hEq ▸ hS2)
      exact rollupKeyEq_false_of_span r r2 S S2 hspan hspan2 hne
    · exact ih hrest _ S h r hr

/-- A run over a table that already contains every job row, with unique
keys, changes nothing. -/
theorem runRollupJob_fix (evs : List TEvent) (nowEpoch : ℕ)
    (startOverride endOverride : Option ℕ) (windows : List ℕ) :
    ∀ T : List RollupRow, KeyNodup T →
      (∀ S ∈ windows,
        ∀ r ∈ computeWindowRollupsJob evs S nowEpoch startOverride endOverride,
          r ∈ T) →
      runRollupJob evs windows nowEpoch startOverride endOverride T = T := by
  induction windows with
  | nil => intro T _ _; simp [runRollupJob]
  | cons S rest ih =>
    intro T hT hmem
    simp only [runRollupJob, List.foldl_cons]
    have hfix : applyRollups
        (computeWindowRollupsJob evs S nowEpoch startOverride endOverride) T = T :=
      applyRollups_fix _ T hT (hmem S (List.mem_cons_self ..))
    rw [hfix]
    exact ih T hT (fun S2 h2 => hmem S2 (List.mem_cons_of_mem _ h2))

/-- C5: with a duplicate-free window set and a table respecting the rollup
primary key, running the rollup job twice over the same time range, window
set and events leaves the table exactly as the first run left it. -/
theorem rollup_job_idempotent (evs : List TEvent) (windows : List ℕ)
    (nowEpoch : ℕ) (startOverride endOverride : Option ℕ)
    (t : List RollupRow) (hw : windows.Nodup) (ht : KeyNodup t) :
    runRollupJob evs windows nowEpoch startOverride endOverride
        (runRollupJob evs windows nowEpoch startOverride endOverride t)
      = runRollupJob evs windows nowEpoch startOverride endOverride t :=
  runRollupJob_fix evs nowEpoch startOverride endOverride windows _
    (keyNodup_runRollupJob evs nowEpoch startOverride endOverride windows t ht)
    (fun S hS r hr =>
      mem_runRollupJob_self evs nowEpoch startOverride endOverride windows hw
        t S hS r hr)

/-- Instantiation of C5: the three-event table, two windows, an empty
table. -/
theorem rollup_job_idempotent_witness :
    (([300, 600] : List ℕ).Nodup ∧ KeyNodup []) ∧
    runRollupJob witEvents [300, 600] 1000 none none
        (runRollupJob witEvents [300, 600] 1000 none none [])
      = runRollupJob witEvents [300, 600] 1000 none none [] :=
  ⟨⟨by decide, by unfold KeyNodup; exact List.Pairwise.nil⟩,
    rollup_job_idempotent witEvents [300, 600] 1000 none none [] (by decide)
      (by unfold KeyNodup; exact List.Pairwise.nil)⟩

/-- A limit between 1 and 5000 is used as given. -/
theorem clampLimit_eq (k : ℕ) (hk : 0 < k) (hk5 : k ≤ 5000) :
    clampLimit k = k := by
  unfold clampLimit
  have hne : ¬ k = 0 := by omega
  rw [if_neg hne]
  exact Nat.min_eq_left hk5

/-- In a list with strictly increasing event ids, the last element has the
largest id. -/
theorem last_is_max : ∀ (P : List TEvent),
    P.Pairwise (fun a b => a.eventId < b.eventId) →
    ∀ last, P.getLast? = some last →
    ∀ a ∈ P, a = last ∨ a.eventId < last.eventId
  | [], _, last, hlast => by simp at hlast
  | [x], _, last, hlast => by
    simp only [List.getLast?_singleton, Option.some.injEq] at hlast
    intro a ha
    simp only [List.mem_singleton] at ha
    left
    rw [ha, ← hlast]
  | x :: y :: t, hp, last, hlast => by
    have h2 : (y :: t).getLast? = some last := by
      rwa [List.getLast?_cons_cons] at hlast
    intro a ha
    rcases List.mem_cons.mp ha with h | h
    · right
      have hlt : ∀ z ∈ y :: t, x.eventId < z.eventId := (List.pairwise_cons.mp hp).1
      have hmem : last ∈ y :: t := List.mem_of_getLast?_eq_some h2
      rw [h]
      exact hlt last hmem
    · exact last_is_max (y :: t) (List.pairwise_cons.mp hp).2 last h2 a h

/-- In a list with strictly increasing event ids, filtering strictly past
the last id of the n-element prefix yields exactly the remaining suffix. -/
theorem filter_gt_eq_drop (ss : List TEvent)
    (hstrict : ss.Pairwise (fun a b => a.eventId < b.eventId)) (n : ℕ)
    (last : TEvent) (hlast : (ss.take n).getLast? = some last) :
    ss.filter (fun e => decide (last.eventId < e.eventId)) = ss.drop n := by
  have hps : (ss.take n).Pairwise (fun a b => a.eventId < b.eventId) :=
    hstrict.sublist (List.take_sublist n ss)
  have hsplit := List.take_append_drop n ss
  have hstrict2 := hstrict
  rw [← hsplit] at hstrict2
  have hcross : ∀ a ∈ ss.take n, ∀ b ∈ ss.drop n, a.eventId < b.eventId :=
    (List.pairwise_append.mp hstrict2).2.2
  have h1 : (ss.take n).filter (fun e => decide (last.eventId < e.eventId)) = [] := by
    rw [List.filter_eq_nil_iff]
    intro a ha
    simp only [decide_eq_true_eq]
    rcases last_is_max (ss.take n) hps last hlast a ha with h | h
    · rw [h]; omega
    · omega
  have h2 : (ss.drop n).filter (fun e => decide (last.eventId < e.eventId))
      = ss.drop n := by
    rw [List.filter_eq_self]
    intro b hb
    simp only [decide_eq_true_eq]
    exact hcross last (List.mem_of_getLast?_eq_some hlast) b hb
  conv_lhs => rw [← hsplit]
  rw [List.filter_append, h1, h2, List.nil_append]

/-- The paging loop started from any token whose remaining rows form a
suffix of the full query result returns exactly that suffix, given enough
fuel. -/
theorem collectPages_eq_drop (table : List TEvent) (vids : List String)
    (startSec endSec : Option ℕ) (k : ℕ) (hk : 0 < k) (hk5 : k ≤ 5000)
    (hstrict : (historyAll table vids startSec endSec).Pairwise
      (fun a b => a.eventId < b.eventId)) :
    ∀ (fuel m : ℕ) (tok : Option ℕ),
      (historyAll table vids startSec endSec).filter (tokenPred tok)
        = (historyAll table vids startSec endSec).drop m →
      (historyAll table vids startSec endSec).length - m ≤ fuel * k →
      collectPages table vids startSec endSec k fuel tok
        = (historyAll table vids startSec endSec).drop m := by
  set ss := historyAll table vids startSec endSec with hss
  intro fuel
  induction fuel with
  | zero =>
    intro m tok _ hlen
    rw [Nat.zero_mul] at hlen
    simp only [collectPages]
    rw [List.drop_eq_nil_of_le (by omega : ss.length ≤ m)]
  | succ fuel ih =>
    intro m tok hfilter hlen
    have hcl : clampLimit k = k := clampLimit_eq k hk hk5
    have hq1 : (queryTelemetryHistory table vids startSec endSec k tok).1
        = (ss.drop m).take k := by
      show ((ss.filter (tokenPred tok)).take (clampLimit k)) = (ss.drop m).take k
      rw [hcl, hfilter]
    have hdroplen : (ss.drop m).length = ss.length - m := List.length_drop m ss
    by_cases hcase : ss.length - m < k
    · have htake : (ss.drop m).take k = ss.drop m :=
        List.take_of_length_le (by omega)
      have hq2 : (queryTelemetryHistory table vids startSec endSec k tok).2
          = none := by
        show (if ((ss.filter (tokenPred tok)).take (clampLimit k)).length
            = clampLimit k
          then ((ss.filter (tokenPred tok)).take (clampLimit k)).getLast?.map
            (fun e => e.eventId)
          else none) = none
        rw [hcl, hfilter, htake]
        rw [if_neg (by omega)]
      simp only [collectPages, hq2, hq1, htake]
    · have hlen2 : (ss.drop m).take k = (ss.drop m).take k := rfl
      have hrowlen : ((ss.drop m).take k).length = k := by
        rw [List.length_take]
        omega
      have hne : (ss.drop m).take k ≠ [] := by
        intro hcon
        rw [hcon] at hrowlen
        simp at hrowlen
        omega
      obtain ⟨last, hlast⟩ : ∃ last, ((ss.drop m).take k).getLast? = some last := by
        cases hl : ((ss.drop m).take k).getLast? with
        | none => exact absurd (List.getLast?_eq_none_iff.mp hl) hne
        | some x => exact ⟨x, rfl⟩
      have hq2 : (queryTelemetryHistory table vids startSec endSec k tok).2
          = some last.eventId := by
        show (if ((ss.filter (tokenPred tok)).take (clampLimit k)).length
            = clampLimit k
          then ((ss.filter (tokenPred tok)).take (clampLimit k)).getLast?.map
            (fun e => e.eventId)
          else none) = some last.eventId
        rw [hcl, hfilter]
        rw [if_pos hrowlen, hlast]
        rfl
      have hlastfull : (ss.take (m + k)).getLast? = some last := by
        rw [List.take_add]
        rw [List.getLast?_append]
        rw [hlast]
        rfl
      have hfilter2 : ss.filter (tokenPred (some last.eventId))
          = ss.drop (m + k) := by
        show ss.filter (fun e => decide (last.eventId < e.eventId))
          = ss.drop (m + k)
        exact filter_gt_eq_drop ss hstrict (m + k) last hlastfull
      have hmul : (fuel + 1) * k = fuel * k + k := by ring
      have hrec := ih (m + k) (some last.eventId) hfilter2 (by omega)
      simp only [collectPages, hq2, hq1, hrec]
      rw [← List.drop_drop]
      exact List.take_append_drop k (ss.drop m)

/-- C6 amended: when stored event ids are unique and assigned consistently
with recorded_at order (later ids never carry earlier timestamps), paging
through history with limit k and resuming on the returned token yields
exactly the rows of the single unrestricted query, in the same order; every
page is ascending in (recorded_at, event_id); and a page is final (no token)
exactly when it has fewer than k rows. -/
theorem history_pagination (table : List TEvent) (vids : List String)
    (startSec endSec : Option ℕ) (k fuel : ℕ) (hk : 0 < k) (hk5 : k ≤ 5000)
    (hids : (table.map (fun e => e.eventId)).Nodup)
    (hmono : ∀ a ∈ table, ∀ b ∈ table,
      a.eventId < b.eventId → a.recordedAt ≤ b.recordedAt)
    (hfuel : (historyAll table vids startSec endSec).length ≤ fuel * k) :
    collectPages table vids startSec endSec k fuel none
      = historyAll table vids startSec endSec ∧
    (∀ tok, ((queryTelemetryHistory table vids startSec endSec k tok).1).Pairwise
      eventLex) ∧
    (∀ tok, ((queryTelemetryHistory table vids startSec endSec k tok).1.length < k
      ↔ (queryTelemetryHistory table vids startSec endSec k tok).2 = none)) := by
  set ss := historyAll table vids startSec endSec with hss
  have hcl : clampLimit k = k := clampLimit_eq k hk hk5
  have hsorted : ss.Pairwise eventLex :=
    List.sorted_insertionSort eventLex (table.filter (histFilter vids startSec endSec))
  have hne_table : table.Pairwise (fun a b => a.eventId ≠ b.eventId) :=
    List.pairwise_map.mp hids
  have hne_filter : (table.filter (histFilter vids startSec endSec)).Pairwise
      (fun a b => a.eventId ≠ b.eventId) :=
    hne_table.sublist (List.filter_sublist table)
  have hsymm : Symmetric (fun a b : TEvent => a.eventId ≠ b.eventId) :=
    fun a b h => h.symm
  have hne_ss : ss.Pairwise (fun a b => a.eventId ≠ b.eventId) :=
    ((List.perm_insertionSort eventLex _).pairwise_iff @hsymm).mpr hne_filter
  have hmem_ss : ∀ x ∈ ss, x ∈ table := by
    intro x hx
    have := (List.mem_insertionSort eventLex).mp hx
    exact (List.mem_filter.mp this).1
  have hstrict : ss.Pairwise (fun a b => a.eventId < b.eventId) := by
    refine (hsorted.and hne_ss).imp_of_mem ?_
    intro a b ha hb hab
    obtain ⟨hlex, hne⟩ := hab
    by_cases hord : a.eventId < b.eventId
    · exact hord
    · exfalso
      have h1 : b.eventId < a.eventId := by omega
      have h2 := hmono b (hmem_ss b hb) a (hmem_ss a ha) h1
      unfold eventLex at hlex
      omega
  refine ⟨?_, ?_, ?_⟩
  · have hfilter : ss.filter (tokenPred none) = ss.drop 0 := by
      rw [List.drop_zero]
      have : tokenPred none = fun _ : TEvent => true := rfl
      rw [this, List.filter_true]
    have := collectPages_eq_drop table vids startSec endSec k hk hk5 hstrict
      fuel 0 none hfilter (by rw [← hss]; omega)
    rwa [List.drop_zero] at this
  · intro tok
    have heq : (queryTelemetryHistory table vids startSec endSec k tok).1
        = (ss.filter (tokenPred tok)).take (clampLimit k) := rfl
    rw [heq]
    refine hsorted.sublist ?_
    exact (List.take_sublist _ _).trans (List.filter_sublist ss)
  · intro tok
    have heq : (queryTelemetryHistory table vids startSec endSec k tok).1
        = (ss.filter (tokenPred tok)).take (clampLimit k) := rfl
    constructor
    · intro hlt
      rw [heq, hcl] at hlt
      show (if ((ss.filter (tokenPred tok)).take (clampLimit k)).length
          = clampLimit k
        then ((ss.filter (tokenPred tok)).take (clampLimit k)).getLast?.map
          (fun e => e.eventId)
        else none) = none
      rw [hcl]
      rw [if_neg (by omega)]
    · intro hnone
      rw [heq, hcl]
      by_contra hge
      have hle : ((ss.filter (tokenPred tok)).take k).length ≤ k := by
        rw [List.length_take]
        omega
      have hk2 : ((ss.filter (tokenPred tok)).take k).length = k := by omega
      have hne2 : (ss.filter (tokenPred tok)).take k ≠ [] := by
        intro hcon
        rw [hcon] at hk2
        simp at hk2
        omega
      obtain ⟨last, hlast⟩ :
          ∃ last, ((ss.filter (tokenPred tok)).take k).getLast? = some last := by
        cases hl : ((ss.filter (tokenPred tok)).take k).getLast? with
        | none => exact absurd (List.getLast?_eq_none_iff.mp hl) hne2
        | some x => exact ⟨x, rfl⟩
      have hq2 : (queryTelemetryHistory table vids startSec endSec k tok).2
          = some last.eventId := by
        show (if ((ss.filter (tokenPred tok)).take (clampLimit k)).length
            = clampLimit k
          then ((ss.filter (tokenPred tok)).take (clampLimit k)).getLast?.map
            (fun e => e.eventId)
          else none) = some last.eventId
        rw [hcl, if_pos hk2, hlast]
        rfl
      rw [hq2] at hnone
      cases hnone

/-- C6 counterexample for the claim as stated: with an event whose id is
larger but whose recorded_at is earlier, page size 1 returns that event as
the first page, and resuming with event_id strictly above its id skips the
remaining row; the concatenation has one row while the unrestricted query
has two. -/
theorem history_pagination_counterexample :
    collectPages cexHistoryTable [] none none 1 3 none = [cexEventLateId] ∧
    historyAll cexHistoryTable [] none none = [cexEventLateId, cexEventEarlyId] ∧
    (collectPages cexHistoryTable [] none none 1 3 none).length
      ≠ (historyAll cexHistoryTable [] none none).length := by
  refine ⟨rfl, rfl, by decide⟩

/-- Instantiation of the amended C6 at a three-event table with ids in
recorded_at order and page size 2. -/
theorem history_pagination_witness :
    (0 < 2 ∧ 2 ≤ 5000 ∧ (witHistoryTable.map (fun e => e.eventId)).Nodup ∧
      (∀ a ∈ witHistoryTable, ∀ b ∈ witHistoryTable,
        a.eventId < b.eventId → a.recordedAt ≤ b.recordedAt) ∧
      (historyAll witHistoryTable [] none none).length ≤ 4 * 2) ∧
    collectPages witHistoryTable [] none none 2 4 none
      = historyAll witHistoryTable [] none none ∧
    (∀ tok, ((queryTelemetryHistory witHistoryTable [] none none 2 tok).1).Pairwise
      eventLex) ∧
    (∀ tok, ((queryTelemetryHistory witHistoryTable [] none none 2 tok).1.length < 2
      ↔ (queryTelemetryHistory witHistoryTable [] none none 2 tok).2 = none)) :=
  ⟨⟨by decide, by decide, by decide, by decide, by decide⟩,
    history_pagination witHistoryTable [] none none 2 4 (by decide) (by decide)
      (by decide) (by decide) (by decide)⟩

/-- C10 amended: the aggregate query resolves the requested window W to
max(W, base) where base is the smallest materialised window; when the
resolved window is materialised its rows are returned directly, and
otherwise the rows of the base window (not of the smallest materialised
divisor of W) are regrouped into resolved-sized epoch-aligned buckets, with
sampleCount summed, avgSpeed recombined as the sampleCount-weighted
average, maxSpeed as max, minFuel as min and totalDistance as sum, over
exactly the filtered base-window rows whose aligned start is the bucket's
start. -/
theorem historical_aggregates_amended (windows : List ℕ)
    (table : List RollupRow) (vids : List String) (startSec endSec : Option ℕ)
    (W : ℕ) :
    let base := windows.headD 300
    let effective := if 0 < W then W else base
    let resolved := max effective base
    let source := if resolved ∈ windows then resolved else base
    let rows := List.insertionSort rowLex
      (table.filter (rowFilterAgg source vids startSec endSec))
    (resolved = source →
      queryHistoricalAggregates windows table vids startSec endSec W
        = rows.map directBucket) ∧
    (resolved ≠ source →
      ∀ bkt ∈ queryHistoricalAggregates windows table vids startSec endSec W,
        bkt.bucketEnd = bkt.bucketStart + resolved ∧
        resolved ∣ bkt.bucketStart ∧
        (rows.filter (fun r =>
          alignToWindow r.bucketStart resolved = bkt.bucketStart)) ≠ [] ∧
        bkt.sampleCount = ((rows.filter (fun r =>
          alignToWindow r.bucketStart resolved = bkt.bucketStart)).map
            (fun r => r.sampleCount)).sum ∧
        bkt.avgSpeed = (if 0 < ((rows.filter (fun r =>
            alignToWindow r.bucketStart resolved = bkt.bucketStart)).map
              (fun r => r.sampleCount)).sum
          then ((rows.filter (fun r =>
            alignToWindow r.bucketStart resolved = bkt.bucketStart)).map
              (fun r => r.avgSpeed * (r.sampleCount : ℚ))).sum
            / ((((rows.filter (fun r =>
              alignToWindow r.bucketStart resolved = bkt.bucketStart)).map
                (fun r => r.sampleCount)).sum : ℕ) : ℚ)
          else 0) ∧
        bkt.maxSpeed = maxOpt ((rows.filter (fun r =>
          alignToWindow r.bucketStart resolved = bkt.bucketStart)).map
            (fun r => r.maxSpeed)) ∧
        bkt.minFuel = minOpt ((rows.filter (fun r =>
          alignToWindow r.bucketStart resolved = bkt.bucketStart)).map
            (fun r => r.minFuel)) ∧
        bkt.totalDistance = ((rows.filter (fun r =>
          alignToWindow r.bucketStart resolved = bkt.bucketStart)).map
            (fun r => r.totalDistance)).sum ∧
        (rows.filter (fun r =>
          alignToWindow r.bucketStart resolved = bkt.bucketStart)).Perm
          ((table.filter (rowFilterAgg (windows.headD 300) vids startSec endSec)).filter
            (fun r => alignToWindow r.bucketStart resolved = bkt.bucketStart))) := by
  intro base effective resolved source rows
  constructor
  · intro hres
    show (if rows.isEmpty then []
      else if resolved = source then rows.map directBucket
      else regroupRows resolved rows) = rows.map directBucket
    by_cases hemp : rows.isEmpty
    · rw [if_pos hemp]
      have : rows = [] := List.isEmpty_iff.mp hemp
      rw [this]
      rfl
    · rw [if_neg hemp, if_pos hres]
  · intro hres bkt hm
    have hsrc : source = base := by
      show (if resolved ∈ windows then resolved else base) = base
      by_cases hin : resolved ∈ windows
      · exfalso
        apply hres
        show resolved = (if resolved ∈ windows then resolved else base)
        rw [if_pos hin]
      · rw [if_neg hin]
    have hm2 : bkt ∈ (if rows.isEmpty then []
        else if resolved = source then rows.map directBucket
        else regroupRows resolved rows) := hm
    by_cases hemp : rows.isEmpty
    · rw [if_pos hemp] at hm2
      cases hm2
    · rw [if_neg hemp, if_neg hres] at hm2
      unfold regroupRows at hm2
      have hm3 := (List.mem_insertionSort aggLe).mp hm2
      obtain ⟨key, hkey, hmk⟩ := List.mem_map.mp hm3
      obtain ⟨r0, hr0, hr0k⟩ := List.mem_map.mp (List.mem_dedup.mp hkey)
      have hstart : bkt.bucketStart = key := by rw [← hmk]
      have hend : bkt.bucketEnd = key + resolved := by rw [← hmk]
      have hr0G : r0 ∈ rows.filter (fun r =>
          alignToWindow r.bucketStart resolved = bkt.bucketStart) := by
        refine List.mem_filter.mpr ⟨hr0, ?_⟩
        simp only [decide_eq_true_eq]
        rw [hstart, hr0k]
      refine ⟨by rw [hend, hstart], ?_, List.ne_nil_of_mem hr0G, ?_, ?_, ?_, ?_, ?_, ?_⟩
      · rw [hstart, ← hr0k]
        exact alignToWindow_dvd ..
      · rw [hstart, ← hmk]
      · rw [hstart, ← hmk]
      · rw [hstart, ← hmk]
      · rw [hstart, ← hmk]
      · rw [hstart, ← hmk]
      · have hsrc2 : source = windows.headD 300 := hsrc
        rw [← hsrc2]
        exact (List.perm_insertionSort rowLex _).filter _

/-- C10 counterexample: with materialised windows 300 and 500 and W = 1000,
the smallest materialised window dividing W is 500 (300 does not divide
1000), but the implementation serves the request from the base 300-second
rows; against a table holding both a 300-second row and a 500-second row
for the same period, the two strategies produce different buckets. -/
theorem historical_aggregates_counterexample :
    sanitizeRollupWindows 300 [500] = [300, 500] ∧
    queryHistoricalAggregates (sanitizeRollupWindows 300 [500]) cexRollupTable
        [] none none 1000
      = [{ bucketStart := 0, bucketEnd := 1000, sampleCount := 1, avgSpeed := 20,
           maxSpeed := some 20, minFuel := some 50, totalDistance := 1 }] ∧
    specAggregatesSmallestDivisor (sanitizeRollupWindows 300 [500]) cexRollupTable
        [] none none 1000
      = [{ bucketStart := 0, bucketEnd := 1000, sampleCount := 1, avgSpeed := 10,
           maxSpeed := some 10, minFuel := some 60, totalDistance := 2 }] ∧
    queryHistoricalAggregates (sanitizeRollupWindows 300 [500]) cexRollupTable
        [] none none 1000
      ≠ specAggregatesSmallestDivisor (sanitizeRollupWindows 300 [500]) cexRollupTable
        [] none none 1000 := by
  have hwin : sanitizeRollupWindows 300 [500] = [300, 500] := by
    norm_num [sanitizeRollupWindows]
  have hcode : queryHistoricalAggregates (sanitizeRollupWindows 300 [500])
      cexRollupTable [] none none 1000
      = [{ bucketStart := 0, bucketEnd := 1000, sampleCount := 1, avgSpeed := 20,
           maxSpeed := some 20, minFuel := some 50, totalDistance := 1 }] := by
    rw [hwin]
    norm_num [queryHistoricalAggregates, cexRollupTable, cexRollupBase,
      cexRollupFive, rowFilterAgg, regroupRows, alignToWindow, maxOpt, minOpt]
  have hspec : specAggregatesSmallestDivisor (sanitizeRollupWindows 300 [500])
      cexRollupTable [] none none 1000
      = [{ bucketStart := 0, bucketEnd := 1000, sampleCount := 1, avgSpeed := 10,
           maxSpeed := some 10, minFuel := some 60, totalDistance := 2 }] := by
    rw [hwin]
    norm_num [specAggregatesSmallestDivisor, cexRollupTable, cexRollupBase,
      cexRollupFive, rowFilterAgg, regroupRows, alignToWindow, maxOpt, minOpt]
  refine ⟨hwin, hcode, hspec, ?_⟩
  rw [hcode, hspec]
  intro hcon
  norm_num at hcon

/-- Instantiation of the amended C10 on the materialised-window path. -/
theorem historical_aggregates_amended_witness :
    (300 : ℕ) = 300 ∧
    queryHistoricalAggregates [300] cexRollupTable [] none none 300
      = (List.insertionSort rowLex (cexRollupTable.filter
          (rowFilterAgg 300 [] none none))).map directBucket :=
  ⟨rfl, (historical_aggregates_amended [300] cexRollupTable
    [] none none 300).1 (by decide)⟩
